import Mathlib

/-!
Verification of the glob pattern resolver (grob/glob, RingoJS).

The development shallowly embeds the core of src/lib/glob.js (the Path
Resolver, the Globstar Expansion and the Glob Orchestrator with its ignore
post-filter), the ES6 rewrite of the same module (src/unnamed/part_002),
and the literal branch of the older implementation (src/unnamed/part_001).

Modelling conventions, chosen once and used throughout:

* Paths are slash-separated strings, exactly as in the source.  The
  filesystem is a finite tree of nodes; a directory node carries a flag
  recording whether the underlying entry is a symbolic link (the only
  place the source consults fs.isLink is on paths that are directories).
* The working directory is a fixed segment list stored in the FS record;
  the RingoJS primitives fs.exists / fs.isDirectory / fs.isLink / fs.list
  resolve a relative argument against the working directory, so the model
  routes every query (absolute or relative) through FS.findPath.
  fs.resolve(fs.workingDirectory(), p) is embedded as FS.resolvePath.
* Path lookup splits a string on the separator and drops empty segments,
  matching java.io.File, which ignores duplicate and trailing separators
  (the comment in part_001 documents this behaviour of File.exists).
* The globstar expansion of the source recurses by re-resolving the
  joined child path against the filesystem; the embedding recurses over
  the subtree found once at the starting path, which coincides with the
  source for well-formed trees (entry names nonempty, separator-free;
  FSNode.wfB below) and keeps the definition total.
* The pattern translator (the external fnmatch module) is an external
  collaborator; the embedding receives its output, a list of segment
  sequences.  A segment is a literal string, a compiled matcher (a
  predicate on names, standing for java.util.regex.Pattern), or the
  globstar sentinel.  The translate/getMatcher pair used by the ignore
  filter is likewise kept abstract in the Ignorer record.
* JS Array.prototype.sort with the default comparator sorts by
  lexicographic string comparison; it is embedded as an insertion sort
  over a computable lexicographic order on strings.
-/

namespace Glob

/-! ### Characters, separators, and path-string utilities -/

/-- Splits a character list at the separator, dropping empty segments,
accumulating the current segment in cur.  This is the segment view of a
path string used by the filesystem model (java.io.File collapses duplicate
separators and ignores a trailing one). -/
def splitDropAux (cur : List Char) : List Char → List (List Char)
  | [] => if cur.isEmpty then [] else [cur]
  | c :: rest =>
      if c = '/' then (if cur.isEmpty then [] else [cur]) ++ splitDropAux [] rest
      else splitDropAux (cur ++ [c]) rest

/-- The nonempty slash-separated segments of a path string. -/
def pathSegs (s : String) : List String := (splitDropAux [] s.data).map String.mk

/-- Splits a character list at every separator, keeping empty segments:
the behaviour of the JS String.prototype.split used by the translator to
cut a pattern into per-component segments. -/
def splitAllAux (cur : List Char) : List Char → List (List Char)
  | [] => [cur]
  | c :: rest =>
      if c = '/' then cur :: splitAllAux [] rest
      else splitAllAux (cur ++ [c]) rest

/-- JS split on the separator (keeps empty segments). -/
def splitSlash (s : String) : List String := (splitAllAux [] s.data).map String.mk

/-- JS Array.prototype.join with the separator (no filtering of empties):
the source applies it to the collected literal segment list. -/
def joinAll : List String → String
  | [] => ""
  | s :: rest =>
      match rest with
      | [] => s
      | _ :: _ => s ++ "/" ++ joinAll rest

/-- The custom two-argument join of src/lib/glob.js lines 85-89: empty
arguments are filtered out, the rest joined with the separator.  RingoJS
fs.join filters empty arguments the same way, so this also embeds the
fs.join(prefix, name) call in getFileMatcher. -/
def join2 (p n : String) : String :=
  if p = "" then n
  else if n = "" then p
  else p ++ "/" ++ n

/-- Whether a path string is absolute (starts with the separator). -/
def isAbsolute (s : String) : Bool :=
  match s.data with
  | c :: _ => c == '/'
  | [] => false

/-- Whether the last character of the string is the separator: the check
path[path.length - 1] === separator of resolveStringPath. -/
def lastIsSep (s : String) : Bool :=
  match s.data.getLast? with
  | some c => c == '/'
  | none => false

/-- Whether the first character is a dot: the check
name.charAt(0) !== "." of resolveGlobStar, negated. -/
def headIsDot (s : String) : Bool :=
  match s.data with
  | c :: _ => c == '.'
  | [] => false

/-- A well-formed directory entry name: nonempty and separator-free.
Real filesystem listings only produce such names. -/
def goodName (s : String) : Bool :=
  !(s.data.isEmpty) && !(s.data.contains '/')

/-! ### The filesystem model -/

/-- A node of the filesystem tree.  A directory carries the flag returned
by fs.isLink (whether the entry is a symbolic link; for a link to a
directory the entries of the target are stored inline, since fs.list
follows links) and its named children. -/
inductive FSNode where
  | file : FSNode
  | dir : Bool → List (String × FSNode) → FSNode

/-- First entry with the given name. -/
def lookupEntry : List (String × FSNode) → String → Option FSNode
  | [], _ => none
  | e :: rest, name => if e.1 = name then some e.2 else lookupEntry rest name

/-- Walks a segment list down the tree. -/
def FSNode.find : FSNode → List String → Option FSNode
  | n, [] => some n
  | FSNode.dir _ es, s :: rest =>
      match lookupEntry es s with
      | some c => FSNode.find c rest
      | none => none
  | FSNode.file, _ :: _ => none

/-- Whether the node is a directory. -/
def FSNode.isDirB : FSNode → Bool
  | FSNode.file => false
  | FSNode.dir _ _ => true

/-- Whether the node is a symbolic link. -/
def FSNode.linkB : FSNode → Bool
  | FSNode.file => false
  | FSNode.dir l _ => l

/-- No duplicates in a name list. -/
def nodupNames : List String → Bool
  | [] => true
  | x :: xs => !(xs.contains x) && nodupNames xs

mutual
/-- Well-formedness of a tree: entry names are nonempty, separator-free
and distinct within each directory.  Every real filesystem satisfies
this. -/
def FSNode.wfB : FSNode → Bool
  | FSNode.file => true
  | FSNode.dir _ es => nodupNames (es.map Prod.fst) && wfEntries es
/-- Well-formedness of an entry list. -/
def wfEntries : List (String × FSNode) → Bool
  | [] => true
  | e :: rest => goodName e.1 && FSNode.wfB e.2 && wfEntries rest
end

/-- The filesystem state: the root tree and the working directory (a
segment path from the root, with well-formed segment names). -/
structure FS where
  root : FSNode
  wd : List String
  wd_ok : wd.all goodName = true

/-- Lookup of a path string: an absolute path is walked from the root, a
relative one from the working directory.  This is the common meaning of
every RingoJS fs query in the source. -/
def FS.findPath (fs : FS) (p : String) : Option FSNode :=
  if isAbsolute p then fs.root.find (pathSegs p)
  else fs.root.find (fs.wd ++ pathSegs p)

/-- fs.exists. -/
def FS.pathExists (fs : FS) (p : String) : Bool := (fs.findPath p).isSome

/-- fs.isDirectory. -/
def FS.isDirectory (fs : FS) (p : String) : Bool :=
  match fs.findPath p with
  | some n => n.isDirB
  | none => false

/-- fs.isLink (only ever consulted on directories by the source). -/
def FS.isLink (fs : FS) (p : String) : Bool :=
  match fs.findPath p with
  | some n => n.linkB
  | none => false

/-- fs.list: the entry names of a directory (empty for anything else;
the source only lists paths it has checked to be directories). -/
def FS.list (fs : FS) (p : String) : List String :=
  match fs.findPath p with
  | some (FSNode.dir _ es) => es.map Prod.fst
  | _ => []

/-- fs.workingDirectory() as a string. -/
def FS.wdString (fs : FS) : String := "/" ++ joinAll fs.wd

/-- fs.resolve(fs.workingDirectory(), p): an absolute path stays as it
is, a relative one is appended to the working directory. -/
def FS.resolvePath (fs : FS) (p : String) : String :=
  if isAbsolute p then p else fs.wdString ++ "/" ++ p

/-! ### Pattern segments and options -/

/-- One segment of a translated pattern: a literal string, a compiled
wildcard matcher (java.util.regex.Pattern, embedded as the predicate
name fits pattern.matcher(name).matches()), or the GLOBSTAR sentinel of
fnmatch. -/
inductive Seg where
  | str : String → Seg
  | re : (String → Bool) → Seg
  | globstar : Seg

/-- The test remainder[0] === "" of resolveRegExpPath: strict equality
with the empty string holds only for the literal empty segment. -/
def Seg.isEmptyStr : Seg → Bool
  | Seg.str s => s = ""
  | _ => false

/-- A single ignore pattern or an array of them (the two shapes the
option accepts; filterIgnored wraps a single pattern into an array). -/
inductive IgnoreVal where
  | one : String → IgnoreVal
  | many : List String → IgnoreVal

/-- The array form of the ignore option after the Array.isArray
normalisation of filterIgnored. -/
def IgnoreVal.toList : IgnoreVal → List String
  | IgnoreVal.one s => [s]
  | IgnoreVal.many ss => ss

/-- The option record produced by fnmatch.getOptions: dot and globstar
default to false and true, ignore to undefined.  The resolver reads dot,
the orchestrator reads ignore; globstar is consumed by the (external)
translator and carried along untouched. -/
structure Options where
  dot : Bool
  globstar : Bool
  ignore : Option IgnoreVal

/-- The option record the external fnmatch.translate receives. -/
structure TransOpts where
  dot : Bool
  globstar : Bool

/-- fnmatch.getOptions() of no arguments: the defaults. -/
def defaultTransOpts : TransOpts := { dot := false, globstar := true }

/-- The two fnmatch facilities used by the ignore filter, kept abstract:
translate(pattern, opts) yielding segment sequences and the negation
flag, and getMatcher(patterns, polarity) yielding a path predicate. -/
structure Ignorer where
  translate : String → TransOpts → List (List Seg) × Bool
  getMatcher : List (List Seg) → Bool → String → Bool

/-! ### The embedded program: src/lib/glob.js -/

/-- collectPrefix (src/lib/glob.js lines 98-104): the maximal leading run
of literal segments, and the remainder from the first non-string segment
on. -/
def collectPrefixSegs : List Seg → List String × List Seg
  | [] => ([], [])
  | Seg.str s :: rest =>
      let pr := collectPrefixSegs rest
      (s :: pr.1, pr.2)
  | Seg.re m :: rest => ([], Seg.re m :: rest)
  | Seg.globstar :: rest => ([], Seg.globstar :: rest)

/-- resolveStringPath (lines 134-143): a literal path is returned when it
exists; a path written with a trailing separator must moreover be a
directory (the isDirectory check is made on the original, possibly
relative, path string, exactly as in the source). -/
def resolveStringPath (fs : FS) (path : String) : Option String :=
  let absolutePath := fs.resolvePath path
  if fs.pathExists absolutePath then
    if lastIsSep path && !(fs.isDirectory path) then none
    else some path
  else none

/-- getFileMatcher (lines 152-157): name matches the segment (regex
match, or strict string equality for a literal; the GLOBSTAR sentinel is
neither a Pattern nor equal to any string, so it never matches), and
when limitToDirs is set the entry joined under the relative prefix must
be a directory. -/
def getFileMatcher (fs : FS) (pfx : String) (pattern : Seg) (limitToDirs : Bool) :
    String → Bool :=
  fun name =>
    let isMatch :=
      match pattern with
      | Seg.re m => m name
      | Seg.str s => s == name
      | Seg.globstar => false
    isMatch && (!limitToDirs || fs.isDirectory (join2 pfx name))

mutual
/-- resolveGlobStar (lines 208-221), recursing over the subtree at the
starting path.  The first argument is options.dot, the only option the
expansion reads.  At each visited node (the source condition
relativePath.length > 0 && (!limitToDirs || isDirectory)): a file is
collected when the path is nonempty and limitToDirs is off; a directory
when the path is nonempty.  Entries are walked only when the node is a
directory and not a symbolic link. -/
def globStarWalk (dot : Bool) (limitToDirs : Bool) : FSNode → String → List String
  | FSNode.file, rel =>
      (if 0 < rel.length ∧ limitToDirs = false then [rel] else [])
  | FSNode.dir lnk es, rel =>
      (if 0 < rel.length then [rel] else [])
        ++ (if lnk = false then globStarEntries dot limitToDirs es rel else [])
/-- The forEach over fs.list in resolveGlobStar: each entry whose name
does not start with a dot (unless options.dot) is recursed into with the
joined relative path. -/
def globStarEntries (dot : Bool) (limitToDirs : Bool) :
    List (String × FSNode) → String → List String
  | [], _ => []
  | e :: rest, rel =>
      (if dot = true ∨ headIsDot e.1 = false
        then globStarWalk dot limitToDirs e.2 (join2 rel e.1) else [])
        ++ globStarEntries dot limitToDirs rest rel
end

/-- The entry into globstar expansion: the source resolves the starting
relative path against the working directory once and from then on
re-resolves each joined child path; over a well-formed tree that is the
walk over the subtree found at the starting path.  A nonexistent start
is not a directory, so only the self-collection applies. -/
def resolveGlobStar (fs : FS) (relativePath : String) (limitToDirs : Bool)
    (opts : Options) : List String :=
  match fs.findPath (fs.resolvePath relativePath) with
  | some n => globStarWalk opts.dot limitToDirs n relativePath
  | none => if 0 < relativePath.length ∧ limitToDirs = false then [relativePath] else []

/-- The limitToDirs computation of resolveRegExpPath: after the shift,
the remainder consists of exactly one further segment and that segment is
the literal empty string (the encoding of a trailing separator). -/
def limitToDirsOf : List Seg → Bool
  | [r] => r.isEmptyStr
  | _ => false

/-- The test pattern === fnmatch.GLOBSTAR. -/
def isGlobstar : Seg → Bool
  | Seg.globstar => true
  | _ => false

/-- resolveRegExpPath (lines 167-197).  The result-accumulator argument
of the source is returned instead of mutated; the early return null on a
dead branch (prefix missing or not a directory) contributes nothing, so
it is the empty list here.  An empty remainder also yields nothing (the
source would shift undefined, which matches no entry).  Recursion is on
the remainder, which the source shortens by one segment per level. -/
def resolveRegExpPath (fs : FS) (opts : Options) :
    List Seg → String → List String
  | [], _pfx => []
  | pattern :: rest, pfx =>
      let dir := fs.resolvePath pfx
      if !(fs.pathExists dir && fs.isDirectory dir) then []
      else
        let limitToDirs := limitToDirsOf rest
        let isFinished := limitToDirs || rest.isEmpty
        let candidates :=
          if isGlobstar pattern then
            let cs := resolveGlobStar fs pfx limitToDirs opts
            if isFinished && limitToDirs then cs.map (fun path => path ++ "/") else cs
          else
            ((fs.list dir).filter (getFileMatcher fs pfx pattern limitToDirs)).map
              (fun name => join2 pfx name)
        if !isFinished then candidates.flatMap (resolveRegExpPath fs opts rest)
        else candidates

/-- resolve (lines 112-125): split off the literal prefix; a pure literal
path goes through resolveStringPath (none embeds the fall-through
undefined of the source, which the caller treats exactly like null: no
contribution), otherwise the wildcard walk runs on the remainder. -/
def resolve (fs : FS) (options : Options) (segments : List Seg) : Option (List String) :=
  let pr := collectPrefixSegs segments
  if pr.2.isEmpty then
    match resolveStringPath fs (joinAll pr.1) with
    | some target => some [target]
    | none => none
  else
    some (resolveRegExpPath fs options pr.2 (joinAll pr.1))

/-- filterIgnored (lines 65-77): every ignore pattern is translated by
fnmatch.translate with no options argument (hence with the fnmatch
defaults), turned into a matcher of inverted polarity, and the paths are
filtered through each matcher in turn. -/
def filterIgnored (ig : Ignorer) (paths : List String) (ignore : IgnoreVal) :
    List String :=
  let matchers := ignore.toList.map (fun pattern =>
    let t := ig.translate pattern defaultTransOpts
    ig.getMatcher t.1 (!t.2))
  matchers.foldl (fun paths matcher => paths.filter matcher) paths

/-- Lexicographic comparison on strings, by characters. -/
def listLt : List Char → List Char → Bool
  | [], [] => false
  | [], _ :: _ => true
  | _ :: _, [] => false
  | a :: as, b :: bs =>
      if a.toNat < b.toNat then true
      else if b.toNat < a.toNat then false
      else listLt as bs

/-- Strict lexicographic order on strings. -/
def strLt (a b : String) : Bool := listLt a.data b.data

/-- Insertion into a sorted list, keeping ascending order. -/
def insertSorted (x : String) : List String → List String
  | [] => [x]
  | y :: ys => if strLt y x then y :: insertSorted x ys else x :: y :: ys

/-- JS Array.prototype.sort with the default comparator: ascending
lexicographic string order. -/
def sortPaths (l : List String) : List String := l.foldr insertSorted []

/-- The ignore phase of glob (lines 52-54): applied only when the option
is set. -/
def applyIgnore (ig : Ignorer) (options : Options) (result : List String) :
    List String :=
  match options.ignore with
  | some ignore => filterIgnored ig result ignore
  | none => result

/-- glob (lines 42-56), after the external translation step: every
translated segment sequence is resolved and non-null results are
appended (push.apply of the fall-through undefined appends nothing, so
getD covers both shapes), the ignore filter is applied when set, and the
result is sorted. -/
def glob (ig : Ignorer) (fs : FS) (patterns : List (List Seg)) (options : Options) :
    List String :=
  let result := patterns.foldl
    (fun result segments => result ++ (resolve fs options segments).getD []) []
  sortPaths (applyIgnore ig options result)

/-! ### The embedded program: the ES6 rewrite (src/unnamed/part_002)

collectPrefix, join, resolveStringPath and resolveGlobStar of the
rewrite are source-identical to the originals up to arrow-function
syntax, so the embeddings above serve both files.  The functions that
differ textually are embedded separately below. -/

/-- resolveRegExpPath of the rewrite (part_002 lines 148-181): the only
semantic difference from the original is the directory check of the
inlined matcher, made against the absolute dir joined with the entry
name rather than the relative prefix. -/
def resolveRegExpPath2 (fs : FS) (opts : Options) :
    List Seg → String → List String
  | [], _pfx => []
  | pattern :: rest, pfx =>
      let dir := fs.resolvePath pfx
      if !(fs.pathExists dir && fs.isDirectory dir) then []
      else
        let limitToDirs := limitToDirsOf rest
        let isFinished := limitToDirs || rest.isEmpty
        let candidates :=
          if isGlobstar pattern then
            let cs := resolveGlobStar fs pfx limitToDirs opts
            if isFinished && limitToDirs then cs.map (fun path => path ++ "/") else cs
          else
            ((fs.list dir).filter (fun name =>
                let isMatch :=
                  match pattern with
                  | Seg.re m => m name
                  | Seg.str s => s == name
                  | Seg.globstar => false
                isMatch && (!limitToDirs || fs.isDirectory (join2 dir name)))).map
              (fun name => join2 pfx name)
        if !isFinished then candidates.flatMap (resolveRegExpPath2 fs opts rest)
        else candidates

/-- resolve of the rewrite (part_002 lines 106-120), with the explicit
return null on a failed literal path. -/
def resolve2 (fs : FS) (options : Options) (segments : List Seg) : Option (List String) :=
  let pr := collectPrefixSegs segments
  if pr.2.isEmpty then
    match resolveStringPath fs (joinAll pr.1) with
    | some target => some [target]
    | none => none
  else
    some (resolveRegExpPath2 fs options pr.2 (joinAll pr.1))

/-- filterIgnored of the rewrite (part_002 lines 62-71): a reduce that
translates each ignore pattern and filters in the same pass. -/
def filterIgnored2 (ig : Ignorer) (paths : List String) (ignore : IgnoreVal) :
    List String :=
  ignore.toList.foldl (fun result pattern =>
    let t := ig.translate pattern defaultTransOpts
    result.filter (ig.getMatcher t.1 (!t.2))) paths

/-- glob of the rewrite (part_002 lines 42-53): a reduce that appends the
contents of each non-null resolution, then the ignore filter and the
sort. -/
def glob2 (ig : Ignorer) (fs : FS) (patterns : List (List Seg)) (options : Options) :
    List String :=
  let result := patterns.foldl
    (fun result segments =>
      match resolve2 fs options segments with
      | some arr => result ++ arr
      | none => result) []
  let result2 :=
    match options.ignore with
    | some ignore => filterIgnored2 ig result ignore
    | none => result
  sortPaths result2

/-! ### The embedded program: the older implementation (src/unnamed/part_001) -/

/-- The wildcard metacharacter test of part_001 (RE_MAGIC). -/
def hasMagic (s : String) : Bool :=
  s.data.any (fun c => c = '*' ∨ c = '?' ∨ c = '{' ∨ c = '[')

/-- The branch of the glob function of part_001 (lines 23-31) taken for a
pattern without metacharacters: the literal path is returned when it
exists and, if written with a trailing separator, is a directory. -/
def part1GlobNoMagic (fs : FS) (path : String) : List String :=
  if fs.pathExists path && (!(lastIsSep path) || fs.isDirectory path) then [path]
  else []

/-! ### Spec-modelled translation for concrete pattern shapes -/

/-- Modelled from the spec: the Pattern Translator (the external fnmatch
module, not part of this repository) converts a glob string into segment
sequences by splitting on the separator, compiling wildcard components
and expanding braces; for a pattern containing no wildcard
metacharacters and no braces it yields the single sequence of its
literal components. -/
def translateLiteral (pattern : String) : List (List Seg) :=
  [(splitSlash pattern).map Seg.str]

/-- Modelled from the spec: translation of dir ++ "/**" for a
metacharacter-free dir with the globstar option enabled: the literal
components of dir followed by the GLOBSTAR sentinel. -/
def translateDirGlobstar (dir : String) : List (List Seg) :=
  [(splitSlash dir).map Seg.str ++ [Seg.globstar]]

/-! ### Verification-side definitions -/

/-- The child of a node under a given entry name (none for files). -/
def childAt (n : FSNode) (name : String) : Option FSNode :=
  match n with
  | FSNode.dir _ es => lookupEntry es name
  | FSNode.file => none

/-- The path obtained by joining a chain of entry names under a starting
relative path. -/
def joinChain (rel : String) (names : List String) : String :=
  names.foldl join2 rel

/-- A descent chain through the tree obeying the rules of the globstar
expansion: each step picks a directory entry, never crosses a symbolic
link, and skips dot-named entries unless the dot option is set. -/
inductive ReachChain (dot : Bool) : FSNode → List String → FSNode → Prop where
  | nil (n : FSNode) : ReachChain dot n [] n
  | cons {lnk : Bool} {es : List (String × FSNode)} {name : String} {child : FSNode}
      {names : List String} {n2 : FSNode} :
      (name, child) ∈ es → lnk = false → (dot = true ∨ headIsDot name = false) →
      ReachChain dot child names n2 →
      ReachChain dot (FSNode.dir lnk es) (name :: names) n2

/-- The per-pattern keep predicate the ignore filter applies (lines
69-71 of src/lib/glob.js): the pattern is translated with the fnmatch
defaults and made into a matcher of inverted polarity; a path survives
the filter when the matcher accepts it. -/
def ignoreKeep (ig : Ignorer) (pattern path : String) : Bool :=
  let t := ig.translate pattern defaultTransOpts
  ig.getMatcher t.1 (!t.2) path

/-! ### Concrete instances used by witnesses and counterexamples -/

/-- An ignore machinery that translates every pattern to nothing and
whose matchers accept every path. -/
def exIg : Ignorer := ⟨fun _ _ => ([], false), fun _ _ _ => true⟩

/-- An ignore machinery whose matcher (polarity true) rejects exactly
the path a. -/
def exIgDrop : Ignorer :=
  ⟨fun _ _ => ([], false), fun _ pol path => if pol then !(path == "a") else path == "a"⟩

/-- A small tree: a directory a with a file b inside, a file c, and a
directory L that is a symbolic link with an entry z. -/
def exTree : FSNode := FSNode.dir false [
  ("a", FSNode.dir false [("b", FSNode.file)]),
  ("c", FSNode.file),
  ("L", FSNode.dir true [("z", FSNode.file)])]

/-- The example filesystem: the working directory is the root of
exTree. -/
def exFS : FS := ⟨exTree, [], rfl⟩

/-- Default options: dot off, globstar on, no ignore. -/
def exOpts : Options := ⟨false, true, none⟩

/-! ### String and path lemmas -/

theorem mk_data (s : String) : String.mk s.data = s := rfl

theorem data_append2 (a b : String) : (a ++ b).data = a.data ++ b.data :=
  String.data_append a b

theorem splitDropAux_append_sep (a : List Char) :
    ∀ (cur b : List Char),
      splitDropAux cur (a ++ '/' :: b) = splitDropAux cur a ++ splitDropAux [] b := by
  induction a with
  | nil =>
      intro cur b
      simp only [List.nil_append, splitDropAux]
      by_cases h : cur.isEmpty <;> simp [h]
  | cons c cs ih =>
      intro cur b
      simp only [List.cons_append, splitDropAux]
      by_cases h : c = '/'
      · subst h
        by_cases h2 : cur.isEmpty <;> simp [h2, ih]
      · simp [h, ih]

theorem splitDropAux_noSep (a : List Char) :
    ∀ (cur : List Char), '/' ∉ a →
      splitDropAux cur a = if (cur ++ a).isEmpty then [] else [cur ++ a] := by
  induction a with
  | nil => intro cur _; simp [splitDropAux]
  | cons c cs ih =>
      intro cur h
      have hc : ¬ (c = '/') := fun he => h (he ▸ List.mem_cons_self c cs)
      have hcs : '/' ∉ cs := fun hm => h (List.mem_cons_of_mem c hm)
      simp only [splitDropAux, if_neg hc, ih (cur ++ [c]) hcs]
      simp

theorem pathSegs_empty : pathSegs "" = [] := rfl

theorem pathSegs_data (s : String) :
    pathSegs s = (splitDropAux [] s.data).map String.mk := rfl

theorem pathSegs_append_sep (a b : String) :
    pathSegs (a ++ "/" ++ b) = pathSegs a ++ pathSegs b := by
  have hd : (a ++ "/" ++ b).data = a.data ++ '/' :: b.data := by
    simp [data_append2]
  simp only [pathSegs_data, hd, splitDropAux_append_sep, List.map_append]

theorem pathSegs_trailing_sep (a : String) : pathSegs (a ++ "/") = pathSegs a := by
  have h := pathSegs_append_sep a ""
  have he : a ++ "/" ++ "" = a ++ "/" := by
    apply String.ext
    simp [data_append2]
  rw [he] at h
  simp [h, pathSegs_empty]

theorem goodName_ne_empty {s : String} (h : goodName s = true) : s ≠ "" := by
  intro he
  subst he
  simp [goodName] at h

theorem goodName_no_sep {s : String} (h : goodName s = true) : '/' ∉ s.data := by
  simp only [goodName, Bool.and_eq_true, Bool.not_eq_true'] at h
  have h2 := h.2
  simp at h2
  exact h2

theorem pathSegs_good {s : String} (h : goodName s = true) : pathSegs s = [s] := by
  have hne : s.data ≠ [] := by
    intro he
    apply goodName_ne_empty h
    apply String.ext
    simp [he]
  rw [pathSegs_data, splitDropAux_noSep s.data [] (goodName_no_sep h)]
  simp only [List.nil_append]
  rw [if_neg (by simpa using hne)]
  simp [mk_data]

theorem pathSegs_join2 (p n : String) :
    pathSegs (join2 p n) = pathSegs p ++ pathSegs n := by
  unfold join2
  by_cases hp : p = ""
  · simp [hp, pathSegs_empty]
  · by_cases hn : n = ""
    · simp [hp, hn, pathSegs_empty]
    · simp [hp, hn, pathSegs_append_sep]

theorem isAbsolute_append_left {p : String} (q : String) (h : p ≠ "") :
    isAbsolute (p ++ q) = isAbsolute p := by
  have hne : p.data ≠ [] := by
    intro he
    exact h (String.ext (by simp [he]))
  match hm : p.data with
  | [] => exact absurd hm hne
  | c :: cs =>
      simp [isAbsolute, data_append2, hm]

theorem isAbsolute_good {s : String} (h : goodName s = true) :
    isAbsolute s = false := by
  match hm : s.data with
  | [] => simp [isAbsolute, hm]
  | c :: cs =>
      have hns : '/' ∉ s.data := goodName_no_sep h
      rw [hm] at hns
      have hc : ¬ (c = '/') := fun he => hns (he ▸ List.mem_cons_self c cs)
      simp [isAbsolute, hm]
      intro he
      exact absurd he hc

/-! ### Working directory and lookup lemmas -/

theorem wdString_ne_empty (fs : FS) : fs.wdString ≠ "" := by
  intro h
  have : (fs.wdString).data = [] := by rw [h]
  rw [FS.wdString, data_append2] at this
  simp at this

theorem isAbsolute_wdString (fs : FS) : isAbsolute fs.wdString = true := by
  have hd : fs.wdString.data = '/' :: (joinAll fs.wd).data := by
    rw [FS.wdString, data_append2]; rfl
  simp [isAbsolute, hd]

theorem pathSegs_sep_prepend (x : String) : pathSegs ("/" ++ x) = pathSegs x := by
  have hd : ("/" ++ x).data = '/' :: x.data := by rw [data_append2]; rfl
  simp [pathSegs_data, hd, splitDropAux]

theorem pathSegs_joinAll : ∀ {l : List String}, l.all goodName = true →
    pathSegs (joinAll l) = l := by
  intro l
  induction l with
  | nil => intro _; rfl
  | cons s rest ih =>
      intro h
      simp only [List.all_cons, Bool.and_eq_true] at h
      cases rest with
      | nil => simp [joinAll, pathSegs_good h.1]
      | cons r rs =>
          have : joinAll (s :: r :: rs) = s ++ "/" ++ joinAll (r :: rs) := rfl
          rw [this, pathSegs_append_sep, pathSegs_good h.1, ih h.2]
          rfl

theorem pathSegs_wdString (fs : FS) : pathSegs fs.wdString = fs.wd := by
  rw [FS.wdString, pathSegs_sep_prepend, pathSegs_joinAll fs.wd_ok]

theorem findPath_resolvePath (fs : FS) (p : String) :
    fs.findPath (fs.resolvePath p) = fs.findPath p := by
  unfold FS.resolvePath
  by_cases h : isAbsolute p = true
  · simp [h]
  · rw [if_neg (by simp [h])]
    have habs : isAbsolute (fs.wdString ++ "/" ++ p) = true := by
      rw [isAbsolute_append_left p (by
        intro he
        have : (fs.wdString ++ "/").data = [] := by rw [he]
        rw [data_append2] at this
        simp at this)]
      rw [isAbsolute_append_left "/" (wdString_ne_empty fs)]
      exact isAbsolute_wdString fs
    have hsegs : pathSegs (fs.wdString ++ "/" ++ p) = fs.wd ++ pathSegs p := by
      rw [pathSegs_append_sep, pathSegs_wdString]
    unfold FS.findPath
    rw [habs, hsegs, if_pos rfl, if_neg (by simp [h])]

theorem find_append (a : List String) :
    ∀ (n : FSNode) (b : List String),
      n.find (a ++ b) = (n.find a).bind (fun m => m.find b) := by
  induction a with
  | nil => intro n b; simp [FSNode.find]
  | cons s rest ih =>
      intro n b
      cases n with
      | file => simp [FSNode.find]
      | dir l es =>
          simp only [List.cons_append, FSNode.find]
          cases h : lookupEntry es s with
          | none => simp
          | some c => simp [ih]

theorem find_singleton (m : FSNode) (name : String) :
    m.find [name] = childAt m name := by
  cases m with
  | file => rfl
  | dir l es =>
      simp only [FSNode.find, childAt]
      cases h : lookupEntry es name <;> simp [FSNode.find]

theorem find_snoc (n : FSNode) (segs : List String) (name : String) :
    n.find (segs ++ [name]) = (n.find segs).bind (fun m => childAt m name) := by
  rw [find_append]
  cases n.find segs <;> simp [find_singleton]

theorem findPath_empty (fs : FS) : fs.findPath "" = fs.root.find fs.wd := by
  unfold FS.findPath
  rw [if_neg (by simp [isAbsolute])]
  simp [pathSegs_empty]

theorem findPath_join2 (fs : FS) (p : String) {name : String}
    (h : goodName name = true) :
    fs.findPath (join2 p name) = (fs.findPath p).bind (fun m => childAt m name) := by
  have hn : name ≠ "" := goodName_ne_empty h
  unfold join2
  by_cases hp : p = ""
  · subst hp
    rw [if_pos rfl, findPath_empty]
    unfold FS.findPath
    rw [isAbsolute_good h, if_neg (by simp), pathSegs_good h, find_snoc]
  · rw [if_neg hp, if_neg hn]
    have habs : isAbsolute (p ++ "/" ++ name) = isAbsolute p := by
      rw [isAbsolute_append_left name (by
            intro he
            have : (p ++ "/").data = [] := by rw [he]
            rw [data_append2] at this
            simp at this),
        isAbsolute_append_left "/" hp]
    have hsegs : pathSegs (p ++ "/" ++ name) = pathSegs p ++ [name] := by
      rw [pathSegs_append_sep, pathSegs_good h]
    unfold FS.findPath
    rw [habs, hsegs]
    by_cases ha : isAbsolute p = true
    · rw [if_pos ha, if_pos ha, find_snoc]
    · rw [if_neg ha, if_neg ha, ← List.append_assoc, find_snoc]

theorem findPath_trailing_sep (fs : FS) {p : String} (h : p ≠ "") :
    fs.findPath (p ++ "/") = fs.findPath p := by
  unfold FS.findPath
  rw [isAbsolute_append_left "/" h, pathSegs_trailing_sep]

/-! ### Well-formedness lemmas -/

theorem wfB_dir {l : Bool} {es : List (String × FSNode)}
    (h : FSNode.wfB (FSNode.dir l es) = true) :
    nodupNames (es.map Prod.fst) = true ∧ wfEntries es = true := by
  rw [FSNode.wfB] at h
  exact And.intro (Bool.and_elim_left h) (Bool.and_elim_right h)

theorem wfEntries_mem : ∀ {es : List (String × FSNode)} {name : String} {c : FSNode},
    wfEntries es = true → (name, c) ∈ es →
    goodName name = true ∧ FSNode.wfB c = true := by
  intro es
  induction es with
  | nil => intro name c _ hm; cases hm
  | cons e rest ih =>
      intro name c h hm
      rw [wfEntries] at h
      have h1 : (goodName e.1 && FSNode.wfB e.2) = true := Bool.and_elim_left h
      have h2 : wfEntries rest = true := Bool.and_elim_right h
      cases hm with
      | head => exact And.intro (Bool.and_elim_left h1) (Bool.and_elim_right h1)
      | tail _ hm2 => exact ih h2 hm2

theorem wfEntries_lookup : ∀ {es : List (String × FSNode)} {name : String} {c : FSNode},
    wfEntries es = true → lookupEntry es name = some c → FSNode.wfB c = true := by
  intro es
  induction es with
  | nil => intro name c _ hl; cases hl
  | cons e rest ih =>
      intro name c h hl
      rw [wfEntries] at h
      have h1 : (goodName e.1 && FSNode.wfB e.2) = true := Bool.and_elim_left h
      have h2 : wfEntries rest = true := Bool.and_elim_right h
      rw [lookupEntry] at hl
      by_cases he : e.1 = name
      · rw [if_pos he] at hl
        cases hl
        exact Bool.and_elim_right h1
      · rw [if_neg he] at hl
        exact ih h2 hl

theorem nodup_lookup : ∀ {es : List (String × FSNode)} {name : String} {c : FSNode},
    nodupNames (es.map Prod.fst) = true → (name, c) ∈ es →
    lookupEntry es name = some c := by
  intro es
  induction es with
  | nil => intro name c _ hm; cases hm
  | cons e rest ih =>
      intro name c hnd hm
      simp only [List.map_cons, nodupNames, Bool.and_eq_true, Bool.not_eq_true'] at hnd
      rw [lookupEntry]
      cases hm with
      | head =>
          rw [if_pos rfl]
      | tail _ hm2 =>
          by_cases he : e.1 = name
          · exfalso
            have : name ∈ rest.map Prod.fst :=
              List.mem_map.mpr ⟨(name, c), hm2, rfl⟩
            have hc : (rest.map Prod.fst).contains e.1 = true := by
              rw [he]
              exact List.elem_eq_true_of_mem this
            rw [hnd.1] at hc
            cases hc
          · rw [if_neg he]
            exact ih hnd.2 hm2

theorem lookup_mem_names : ∀ {es : List (String × FSNode)} {name : String},
    name ∈ es.map Prod.fst → ∃ c, lookupEntry es name = some c := by
  intro es
  induction es with
  | nil => intro name hm; cases hm
  | cons e rest ih =>
      intro name hm
      rw [lookupEntry]
      by_cases he : e.1 = name
      · exact ⟨e.2, by rw [if_pos he]⟩
      · rw [List.map_cons] at hm
        cases hm with
        | head => exact absurd rfl he
        | tail _ hm2 =>
            obtain ⟨c, hc⟩ := ih hm2
            exact ⟨c, by rw [if_neg he]; exact hc⟩

theorem wfB_find : ∀ (segs : List String) {n m : FSNode},
    n.wfB = true → n.find segs = some m → m.wfB = true := by
  intro segs
  induction segs with
  | nil =>
      intro n m hwf hf
      rw [FSNode.find] at hf
      cases hf
      exact hwf
  | cons s rest ih =>
      intro n m hwf hf
      cases n with
      | file => cases hf
      | dir l es =>
          rw [FSNode.find] at hf
          cases hl : lookupEntry es s with
          | none => rw [hl] at hf; cases hf
          | some c =>
              rw [hl] at hf
              exact ih (wfEntries_lookup (wfB_dir hwf).2 hl) hf

theorem findPath_wf (fs : FS) {p : String} {n : FSNode}
    (hwf : fs.root.wfB = true) (h : fs.findPath p = some n) : n.wfB = true := by
  unfold FS.findPath at h
  by_cases ha : isAbsolute p = true
  · rw [if_pos ha] at h
    exact wfB_find _ hwf h
  · rw [if_neg ha] at h
    exact wfB_find _ hwf h

/-! ### Small string helpers -/

theorem data_eq_nil_iff (s : String) : s.data = [] ↔ s = "" := by
  constructor
  · intro h
    exact String.ext (by simp [h])
  · intro h
    rw [h]

theorem length_pos_iff_ne_empty (s : String) : 0 < s.length ↔ s ≠ "" := by
  have hl : s.length = s.data.length := rfl
  rw [hl, List.length_pos]
  constructor
  · intro h he
    exact h ((data_eq_nil_iff s).mpr he)
  · intro h he
    exact h ((data_eq_nil_iff s).mp he)

theorem join2_ne_empty {p : String} (n : String) (h : p ≠ "") : join2 p n ≠ "" := by
  unfold join2
  rw [if_neg h]
  by_cases hn : n = ""
  · rw [if_pos hn]; exact h
  · rw [if_neg hn]
    intro he
    have : (p ++ "/" ++ n).data = [] := by rw [he]
    simp [data_append2] at this

theorem joinChain_ne_empty {rel : String} (names : List String) (h : rel ≠ "") :
    joinChain rel names ≠ "" := by
  induction names generalizing rel with
  | nil => exact h
  | cons name rest ih =>
      have : joinChain rel (name :: rest) = joinChain (join2 rel name) rest := rfl
      rw [this]
      exact ih (join2_ne_empty name h)

theorem lastIsSep_append_sep (s : String) : lastIsSep (s ++ "/") = true := by
  have hd : (s ++ "/").data = s.data ++ ['/'] := by rw [data_append2]
  simp [lastIsSep, hd]

/-! ### The lexicographic order used by the sort -/

theorem char_eq_of_toNat {a b : Char} (h : a.toNat = b.toNat) : a = b := by
  have h1 := Char.ofNat_toNat a
  have h2 := Char.ofNat_toNat b
  rw [← h1, ← h2, h]

theorem listLt_irrefl : ∀ (x : List Char), listLt x x = false := by
  intro x
  induction x with
  | nil => rfl
  | cons a as ih =>
      rw [listLt]
      rw [if_neg (by omega), if_neg (by omega)]
      exact ih

theorem listLt_asymm : ∀ (x y : List Char),
    listLt x y = true → listLt y x = false := by
  intro x
  induction x with
  | nil =>
      intro y h
      cases y with
      | nil => cases h
      | cons b bs => rfl
  | cons a as ih =>
      intro y h
      cases y with
      | nil => cases h
      | cons b bs =>
          rw [listLt] at h ⊢
          rcases Nat.lt_trichotomy a.toNat b.toNat with h1 | h1 | h1
          · rw [if_neg (by omega), if_pos h1]
          · rw [if_neg (by omega), if_neg (by omega)] at h
            rw [if_neg (by omega), if_neg (by omega)]
            exact ih bs h
          · rw [if_neg (by omega), if_pos h1] at h
            cases h

theorem listLt_eq_of_both_false : ∀ (x y : List Char),
    listLt x y = false → listLt y x = false → x = y := by
  intro x
  induction x with
  | nil =>
      intro y h1 _
      cases y with
      | nil => rfl
      | cons b bs => cases h1
  | cons a as ih =>
      intro y h1 h2
      cases y with
      | nil => cases h2
      | cons b bs =>
          rw [listLt] at h1 h2
          rcases Nat.lt_trichotomy a.toNat b.toNat with h | h | h
          · rw [if_pos h] at h1
            cases h1
          · rw [if_neg (by omega), if_neg (by omega)] at h1
            rw [if_neg (by omega), if_neg (by omega)] at h2
            rw [char_eq_of_toNat h, ih bs h1 h2]
          · rw [if_pos h] at h2
            cases h2

theorem listLt_trans : ∀ (x y z : List Char),
    listLt x y = true → listLt y z = true → listLt x z = true := by
  intro x
  induction x with
  | nil =>
      intro y z h1 h2
      cases y with
      | nil => cases h1
      | cons b bs =>
          cases z with
          | nil => cases h2
          | cons c cs => rfl
  | cons a as ih =>
      intro y z h1 h2
      cases y with
      | nil => cases h1
      | cons b bs =>
          cases z with
          | nil => cases h2
          | cons c cs =>
              rw [listLt] at h1 h2 ⊢
              rcases Nat.lt_trichotomy a.toNat b.toNat with hab | hab | hab
              · rcases Nat.lt_trichotomy b.toNat c.toNat with hbc | hbc | hbc
                · rw [if_pos (by omega)]
                · rw [if_pos (by omega)]
                · rw [if_neg (by omega), if_pos hbc] at h2
                  cases h2
              · rcases Nat.lt_trichotomy b.toNat c.toNat with hbc | hbc | hbc
                · rw [if_pos (by omega)]
                · rw [if_neg (by omega), if_neg (by omega)] at h1
                  rw [if_neg (by omega), if_neg (by omega)] at h2
                  rw [if_neg (by omega), if_neg (by omega)]
                  exact ih bs cs h1 h2
                · rw [if_neg (by omega), if_pos hbc] at h2
                  cases h2
              · rw [if_neg (by omega), if_pos hab] at h1
                cases h1

/-- The non-strict order the sort produces: b is not strictly below a. -/
def pLe (a b : String) : Prop := strLt b a = false

theorem pLe_refl (a : String) : pLe a a := listLt_irrefl a.data

theorem pLe_of_lt {a b : String} (h : strLt a b = true) : pLe a b :=
  listLt_asymm a.data b.data h

theorem pLe_of_not_lt {a b : String} (h : strLt b a = false) : pLe a b := h

theorem pLe_antisymm {a b : String} (h1 : pLe a b) (h2 : pLe b a) : a = b :=
  String.ext (listLt_eq_of_both_false a.data b.data h2 h1)

theorem pLe_trans {a b c : String} (h1 : pLe a b) (h2 : pLe b c) : pLe a c := by
  unfold pLe strLt at h1 h2 ⊢
  cases hca : listLt c.data a.data with
  | false => rfl
  | true =>
      exfalso
      cases hab : listLt a.data b.data with
      | true =>
          have hcb := listLt_trans c.data a.data b.data hca hab
          rw [h2] at hcb
          cases hcb
      | false =>
          have heq : a.data = b.data := listLt_eq_of_both_false a.data b.data hab h1
          rw [heq] at hca
          rw [h2] at hca
          cases hca

instance : IsAntisymm String pLe where
  antisymm := fun _ _ h1 h2 => pLe_antisymm h1 h2

/-! ### Sorting lemmas -/

theorem insertSorted_perm (x : String) (l : List String) :
    (insertSorted x l).Perm (x :: l) := by
  induction l with
  | nil => exact List.Perm.refl _
  | cons y ys ih =>
      rw [insertSorted]
      by_cases h : strLt y x = true
      · rw [if_pos h]
        exact (List.Perm.cons y ih).trans (List.Perm.swap x y ys)
      · rw [if_neg h]

theorem sortPaths_perm (l : List String) : (sortPaths l).Perm l := by
  induction l with
  | nil => exact List.Perm.refl _
  | cons x xs ih =>
      have : sortPaths (x :: xs) = insertSorted x (sortPaths xs) := rfl
      rw [this]
      exact ((insertSorted_perm x (sortPaths xs)).trans (List.Perm.cons x ih))

theorem mem_sortPaths {a : String} {l : List String} :
    a ∈ sortPaths l ↔ a ∈ l := (sortPaths_perm l).mem_iff

theorem insertSorted_sorted {x : String} {l : List String}
    (h : l.Pairwise pLe) : (insertSorted x l).Pairwise pLe := by
  induction l with
  | nil => simp [insertSorted, List.Pairwise.nil]
  | cons y ys ih =>
      rw [List.pairwise_cons] at h
      rw [insertSorted]
      by_cases hyx : strLt y x = true
      · rw [if_pos hyx]
        rw [List.pairwise_cons]
        constructor
        · intro z hz
          have hz2 := (insertSorted_perm x ys).mem_iff.mp hz
          cases hz2 with
          | head => exact pLe_of_lt hyx
          | tail _ hz3 => exact h.1 z hz3
        · exact ih h.2
      · rw [if_neg hyx]
        have hxy : pLe x y := pLe_of_not_lt (by
          cases hl : strLt y x
          · rfl
          · exact absurd hl hyx)
        rw [List.pairwise_cons]
        constructor
        · intro z hz
          cases hz with
          | head => exact hxy
          | tail _ hz2 => exact pLe_trans hxy (h.1 z hz2)
        · rw [List.pairwise_cons]
          exact h

theorem sortPaths_sorted (l : List String) : (sortPaths l).Pairwise pLe := by
  induction l with
  | nil => simp [sortPaths, List.Pairwise.nil]
  | cons x xs ih => exact insertSorted_sorted ih

theorem sortPaths_eq_of_perm {l l2 : List String} (h : l.Perm l2) :
    sortPaths l = sortPaths l2 :=
  List.eq_of_perm_of_sorted
    (((sortPaths_perm l).trans h).trans (sortPaths_perm l2).symm)
    (sortPaths_sorted l) (sortPaths_sorted l2)

theorem sortPaths_filter_comm (p : String → Bool) (l : List String) :
    sortPaths (l.filter p) = (sortPaths l).filter p :=
  List.eq_of_perm_of_sorted
    ((sortPaths_perm (l.filter p)).trans ((sortPaths_perm l).filter p).symm)
    (sortPaths_sorted _) (List.Pairwise.filter p (sortPaths_sorted l))

/-! ### Globstar walk lemmas -/

mutual
theorem globStarWalk_sound (dot : Bool) (ltd : Bool) :
    ∀ (n : FSNode) (rel r : String), r ∈ globStarWalk dot ltd n rel →
      ∃ names n2, ReachChain dot n names n2 ∧ r = joinChain rel names ∧
        0 < r.length ∧ (ltd = false ∨ n2.isDirB = true) := by
  intro n rel r h
  cases n with
  | file =>
      rw [globStarWalk] at h
      by_cases hc : 0 < rel.length ∧ ltd = false
      · rw [if_pos hc] at h
        cases h with
        | head => exact ⟨[], FSNode.file, ReachChain.nil _, rfl, hc.1, Or.inl hc.2⟩
        | tail _ h2 => cases h2
      · rw [if_neg hc] at h
        cases h
  | dir lnk es =>
      rw [globStarWalk] at h
      rcases List.mem_append.mp h with h1 | h1
      · by_cases hc : 0 < rel.length
        · rw [if_pos hc] at h1
          cases h1 with
          | head =>
              exact ⟨[], FSNode.dir lnk es, ReachChain.nil _, rfl, hc, Or.inr rfl⟩
          | tail _ h2 => cases h2
        · rw [if_neg hc] at h1
          cases h1
      · by_cases hl : lnk = false
        · rw [if_pos hl] at h1
          obtain ⟨name, child, names, n2, hmem, hdot, hch, hr, hlen, hd⟩ :=
            globStarEntries_sound dot ltd es rel r h1
          subst hl
          exact ⟨name :: names, n2, ReachChain.cons hmem rfl hdot hch, hr, hlen, hd⟩
        · rw [if_neg hl] at h1
          cases h1

theorem globStarEntries_sound (dot : Bool) (ltd : Bool) :
    ∀ (es : List (String × FSNode)) (rel r : String),
      r ∈ globStarEntries dot ltd es rel →
      ∃ name child names n2, (name, child) ∈ es ∧
        (dot = true ∨ headIsDot name = false) ∧
        ReachChain dot child names n2 ∧ r = joinChain (join2 rel name) names ∧
        0 < r.length ∧ (ltd = false ∨ n2.isDirB = true) := by
  intro es rel r h
  cases es with
  | nil =>
      rw [globStarEntries] at h
      cases h
  | cons e rest =>
      rw [globStarEntries] at h
      rcases List.mem_append.mp h with h1 | h1
      · by_cases hc : dot = true ∨ headIsDot e.1 = false
        · rw [if_pos hc] at h1
          obtain ⟨names, n2, hch, hr, hlen, hd⟩ :=
            globStarWalk_sound dot ltd e.2 (join2 rel e.1) r h1
          exact ⟨e.1, e.2, names, n2, by
              rw [show (e.1, e.2) = e from rfl]
              exact List.mem_cons_self e rest,
            hc, hch, hr, hlen, hd⟩
        · rw [if_neg hc] at h1
          cases h1
      · obtain ⟨name, child, names, n2, hmem, hdot, hch, hr, hlen, hd⟩ :=
          globStarEntries_sound dot ltd rest rel r h1
        exact ⟨name, child, names, n2, List.mem_cons_of_mem e hmem, hdot, hch, hr,
          hlen, hd⟩
end

theorem globStarEntries_complete (dot : Bool) (ltd : Bool) :
    ∀ (es : List (String × FSNode)) (rel r name : String) (child : FSNode),
      (name, child) ∈ es → (dot = true ∨ headIsDot name = false) →
      r ∈ globStarWalk dot ltd child (join2 rel name) →
      r ∈ globStarEntries dot ltd es rel := by
  intro es
  induction es with
  | nil =>
      intro rel r name child hm _ _
      cases hm
  | cons e rest ih =>
      intro rel r name child hm hdot hw
      rw [globStarEntries]
      apply List.mem_append.mpr
      cases hm with
      | head =>
          left
          rw [if_pos hdot]
          exact hw
      | tail _ hm2 =>
          right
          exact ih rel r name child hm2 hdot hw

theorem globStarWalk_complete (dot : Bool) (ltd : Bool) :
    ∀ (names : List String) {n n2 : FSNode} (rel : String),
      ReachChain dot n names n2 → 0 < (joinChain rel names).length →
      (ltd = false ∨ n2.isDirB = true) →
      joinChain rel names ∈ globStarWalk dot ltd n rel := by
  intro names
  induction names with
  | nil =>
      intro n n2 rel hch hlen hd
      cases hch
      have hlen2 : 0 < rel.length := hlen
      cases n with
      | file =>
          rw [globStarWalk]
          have hltd : ltd = false := by
            cases hd with
            | inl h => exact h
            | inr h => cases h
          rw [if_pos ⟨hlen2, hltd⟩]
          exact List.mem_cons_self _ _
      | dir lnk es =>
          rw [globStarWalk]
          apply List.mem_append.mpr
          left
          rw [if_pos hlen2]
          exact List.mem_cons_self _ _
  | cons name ns ih =>
      intro n n2 rel hch hlen hd
      cases hch with
      | cons hmem hlnk hdot hch2 =>
          rename_i lnk es child
          subst hlnk
          rw [globStarWalk]
          apply List.mem_append.mpr
          right
          rw [if_pos rfl]
          exact globStarEntries_complete dot ltd es rel _ name child hmem hdot
            (ih (join2 rel name) hch2 hlen hd)

theorem chain_findPath (fs : FS) {dot : Bool} :
    ∀ (names : List String) {n n2 : FSNode} {rel : String},
      ReachChain dot n names n2 → fs.findPath rel = some n → n.wfB = true →
      fs.findPath (joinChain rel names) = some n2 ∧ n2.wfB = true := by
  intro names
  induction names with
  | nil =>
      intro n n2 rel hch hf hwf
      cases hch
      exact ⟨hf, hwf⟩
  | cons name ns ih =>
      intro n n2 rel hch hf hwf
      cases hch with
      | cons hmem hlnk hdot hch2 =>
          rename_i lnk es child
          have hwfd := wfB_dir hwf
          have hgc := wfEntries_mem hwfd.2 hmem
          have hlk : lookupEntry es name = some child := nodup_lookup hwfd.1 hmem
          have hstep : fs.findPath (join2 rel name) = some child := by
            rw [findPath_join2 fs rel hgc.1, hf]
            simp [childAt, hlk]
          have hjc : joinChain rel (name :: ns) = joinChain (join2 rel name) ns := rfl
          rw [hjc]
          exact ih hch2 hstep hgc.2

/-! ### Orchestrator-level lemmas -/

theorem foldl_append_flatMap {α β : Type} (f : α → List β) :
    ∀ (l : List α) (init : List β),
      l.foldl (fun r x => r ++ f x) init = init ++ l.flatMap f := by
  intro l
  induction l with
  | nil => intro init; simp
  | cons x xs ih => intro init; simp [ih]

theorem glob_eq (ig : Ignorer) (fs : FS) (patterns : List (List Seg))
    (options : Options) :
    glob ig fs patterns options =
      sortPaths (applyIgnore ig options
        (patterns.flatMap (fun segments => (resolve fs options segments).getD []))) := by
  unfold glob
  rw [foldl_append_flatMap]
  rfl

theorem glob2_eq (ig : Ignorer) (fs : FS) (patterns : List (List Seg))
    (options : Options) :
    glob2 ig fs patterns options =
      sortPaths (match options.ignore with
        | some ignore =>
            filterIgnored2 ig
              (patterns.flatMap (fun segments => (resolve2 fs options segments).getD []))
              ignore
        | none => patterns.flatMap (fun segments => (resolve2 fs options segments).getD [])) := by
  unfold glob2
  have hfold : ∀ (init : List String),
      patterns.foldl (fun result segments =>
        match resolve2 fs options segments with
        | some arr => result ++ arr
        | none => result) init =
      init ++ patterns.flatMap (fun segments => (resolve2 fs options segments).getD []) := by
    induction patterns with
    | nil => intro init; simp
    | cons x xs ih =>
        intro init
        cases h : resolve2 fs options x with
        | some arr => simp [h, ih]
        | none => simp [h, ih]
  rw [hfold]
  rfl

theorem foldl_filter_eq_filter_all {α : Type} (ms : List (α → Bool)) :
    ∀ (paths : List α),
      ms.foldl (fun ps m => ps.filter m) paths =
        paths.filter (fun p => ms.all (fun m => m p)) := by
  induction ms with
  | nil => intro paths; simp
  | cons m ms ih =>
      intro paths
      have h1 : (m :: ms).foldl (fun ps mm => ps.filter mm) paths =
          ms.foldl (fun ps mm => ps.filter mm) (paths.filter m) := rfl
      rw [h1, ih, List.filter_filter]
      apply List.filter_congr
      intro a _
      simp [Bool.and_comm]

theorem filterIgnored_eq (ig : Ignorer) (paths : List String) (ign : IgnoreVal) :
    filterIgnored ig paths ign =
      paths.filter (fun p => ign.toList.all (fun pattern => ignoreKeep ig pattern p)) := by
  unfold filterIgnored
  rw [foldl_filter_eq_filter_all]
  congr 1
  funext p
  induction ign.toList with
  | nil => rfl
  | cons x xs ih => simp [List.all_cons, ih, ignoreKeep]

theorem filterIgnored2_eq (ig : Ignorer) (paths : List String) (ign : IgnoreVal) :
    filterIgnored2 ig paths ign = filterIgnored ig paths ign := by
  unfold filterIgnored2
  rw [filterIgnored_eq]
  have h1 : ∀ (l : List String) (paths : List String),
      l.foldl (fun result pattern =>
        let t := ig.translate pattern defaultTransOpts
        result.filter (ig.getMatcher t.1 (!t.2))) paths =
      paths.filter (fun p => l.all (fun pattern => ignoreKeep ig pattern p)) := by
    intro l
    induction l with
    | nil => intro paths; simp
    | cons x xs ih =>
        intro paths
        have h2 : (x :: xs).foldl (fun result pattern =>
            let t := ig.translate pattern defaultTransOpts
            result.filter (ig.getMatcher t.1 (!t.2))) paths =
          xs.foldl (fun result pattern =>
            let t := ig.translate pattern defaultTransOpts
            result.filter (ig.getMatcher t.1 (!t.2)))
            (paths.filter (ignoreKeep ig x)) := rfl
        rw [h2, ih, List.filter_filter]
        apply List.filter_congr
        intro a _
        simp [ignoreKeep, Bool.and_comm]
  exact h1 ign.toList paths

theorem mem_applyIgnore {ig : Ignorer} {options : Options} {l : List String}
    {r : String} (h : r ∈ applyIgnore ig options l) : r ∈ l := by
  unfold applyIgnore at h
  cases hi : options.ignore with
  | none => rw [hi] at h; exact h
  | some ign =>
      rw [hi] at h
      have h2 : r ∈ filterIgnored ig l ign := h
      rw [filterIgnored_eq] at h2
      exact List.mem_of_mem_filter h2

theorem resolveStringPath_eq (fs : FS) (path : String) :
    resolveStringPath fs path =
      if fs.pathExists path && (!(lastIsSep path) || fs.isDirectory path) then some path
      else none := by
  unfold resolveStringPath
  have hex : fs.pathExists (fs.resolvePath path) = fs.pathExists path := by
    unfold FS.pathExists
    rw [findPath_resolvePath]
  show (if fs.pathExists (fs.resolvePath path) = true then
      if (lastIsSep path && !(fs.isDirectory path)) = true then none else some path
    else none) = _
  rw [hex]
  by_cases h1 : fs.pathExists path = true
  · by_cases h2 : lastIsSep path = true
    · by_cases h3 : fs.isDirectory path = true <;> simp [h1, h2, h3]
    · simp [h1, (by cases h : lastIsSep path; rfl; exact absurd h h2 : lastIsSep path = false)]
  · simp [(by cases h : fs.pathExists path; rfl; exact absurd h h1 : fs.pathExists path = false)]

theorem collectPrefixSegs_strs (strs : List String) :
    collectPrefixSegs (strs.map Seg.str) = (strs, []) := by
  induction strs with
  | nil => rfl
  | cons s rest ih => simp [collectPrefixSegs, ih]

theorem collectPrefixSegs_strs_globstar (strs : List String) :
    collectPrefixSegs (strs.map Seg.str ++ [Seg.globstar]) = (strs, [Seg.globstar]) := by
  induction strs with
  | nil => rfl
  | cons s rest ih => simp [collectPrefixSegs, ih]

theorem resolve_literal (fs : FS) (options : Options) (strs : List String) :
    resolve fs options (strs.map Seg.str) =
      match resolveStringPath fs (joinAll strs) with
      | some target => some [target]
      | none => none := by
  unfold resolve
  rw [collectPrefixSegs_strs]
  rfl

theorem splitAllAux_ne_nil (cs : List Char) : ∀ (cur : List Char),
    splitAllAux cur cs ≠ [] := by
  induction cs with
  | nil => intro cur h; cases h
  | cons c rest ih =>
      intro cur
      rw [splitAllAux]
      by_cases hc : c = '/'
      · rw [if_pos hc]
        intro h
        cases h
      · rw [if_neg hc]
        exact ih (cur ++ [c])

theorem joinAll_cons_ne {x : String} {xs : List String} (h : xs ≠ []) :
    joinAll (x :: xs) = x ++ "/" ++ joinAll xs := by
  cases xs with
  | nil => exact absurd rfl h
  | cons y ys => rfl

theorem joinAll_splitAllAux (cs : List Char) : ∀ (cur : List Char),
    joinAll ((splitAllAux cur cs).map String.mk) = String.mk (cur ++ cs) := by
  induction cs with
  | nil =>
      intro cur
      simp [splitAllAux, joinAll]
  | cons c rest ih =>
      intro cur
      rw [splitAllAux]
      by_cases hc : c = '/'
      · rw [if_pos hc]
        rw [List.map_cons]
        rw [joinAll_cons_ne (by
          intro h
          exact splitAllAux_ne_nil rest [] (by
            cases hm : splitAllAux [] rest
            · rfl
            · rw [hm] at h; cases h))]
        rw [ih []]
        apply String.ext
        simp [data_append2, hc]
      · rw [if_neg hc]
        rw [ih (cur ++ [c])]
        simp

theorem joinAll_splitSlash (f : String) : joinAll (splitSlash f) = f := by
  unfold splitSlash
  rw [joinAll_splitAllAux]
  apply String.ext
  simp

theorem lastIsSep_append_right (a : String) {b : String} (h : b ≠ "") :
    lastIsSep (a ++ b) = lastIsSep b := by
  have hd : (a ++ b).data = a.data ++ b.data := data_append2 a b
  have hb : b.data ≠ [] := fun he => h ((data_eq_nil_iff b).mp he)
  unfold lastIsSep
  rw [hd, List.getLast?_append_of_ne_nil _ hb]

theorem joinAll_snoc_empty : ∀ (strs : List String), strs ≠ [] →
    lastIsSep (joinAll (strs ++ [""])) = true := by
  intro strs
  induction strs with
  | nil => intro h; exact absurd rfl h
  | cons s rest ih =>
      intro _
      cases rest with
      | nil =>
          have : joinAll ([s] ++ [""]) = s ++ "/" ++ "" := rfl
          rw [this]
          have he : s ++ "/" ++ "" = s ++ "/" := by
            apply String.ext
            simp [data_append2]
          rw [he]
          exact lastIsSep_append_sep s
      | cons r rs =>
          have hne : (r :: rs) ++ [""] ≠ [] := by simp
          have : joinAll ((s :: r :: rs) ++ [""]) =
              s ++ "/" ++ joinAll ((r :: rs) ++ [""]) := by
            rw [List.cons_append]
            exact joinAll_cons_ne hne
          rw [this]
          rw [lastIsSep_append_right (s ++ "/") (by
            intro he
            have hl := ih (by simp)
            rw [he] at hl
            simp [lastIsSep] at hl)]
          exact ih (by simp)

/-! ### Branch equations for the wildcard walk -/

theorem rrp_dead (fs : FS) (opts : Options) (pattern : Seg) (rest : List Seg)
    (pfx : String)
    (hg : (fs.pathExists (fs.resolvePath pfx) && fs.isDirectory (fs.resolvePath pfx)) = false) :
    resolveRegExpPath fs opts (pattern :: rest) pfx = [] := by
  rw [resolveRegExpPath]
  simp [hg]

theorem rrp_notfin (fs : FS) (opts : Options) (pattern : Seg) (rest : List Seg)
    (pfx : String)
    (hg : (fs.pathExists (fs.resolvePath pfx) && fs.isDirectory (fs.resolvePath pfx)) = true)
    (hfin : (limitToDirsOf rest || rest.isEmpty) = false) :
    resolveRegExpPath fs opts (pattern :: rest) pfx =
      (if isGlobstar pattern then resolveGlobStar fs pfx (limitToDirsOf rest) opts
       else ((fs.list (fs.resolvePath pfx)).filter
              (getFileMatcher fs pfx pattern (limitToDirsOf rest))).map
            (fun name => join2 pfx name)).flatMap (resolveRegExpPath fs opts rest) := by
  rw [resolveRegExpPath]
  have hltd : limitToDirsOf rest = false := by
    cases h : limitToDirsOf rest
    · rfl
    · rw [h] at hfin; cases hfin
  have hni : rest.isEmpty = false := by
    cases h : rest.isEmpty
    · rfl
    · rw [h] at hfin
      simp at hfin
  simp [hg, hfin, hltd, hni]

theorem rrp_ltd (fs : FS) (opts : Options) (pattern : Seg) (rest : List Seg)
    (pfx : String)
    (hg : (fs.pathExists (fs.resolvePath pfx) && fs.isDirectory (fs.resolvePath pfx)) = true)
    (hltd : limitToDirsOf rest = true) :
    resolveRegExpPath fs opts (pattern :: rest) pfx =
      if isGlobstar pattern then
        (resolveGlobStar fs pfx true opts).map (fun path => path ++ "/")
      else ((fs.list (fs.resolvePath pfx)).filter
              (getFileMatcher fs pfx pattern true)).map
            (fun name => join2 pfx name) := by
  rw [resolveRegExpPath]
  simp [hg, hltd]

theorem rrp_last (fs : FS) (opts : Options) (pattern : Seg) (pfx : String)
    (hg : (fs.pathExists (fs.resolvePath pfx) && fs.isDirectory (fs.resolvePath pfx)) = true) :
    resolveRegExpPath fs opts [pattern] pfx =
      if isGlobstar pattern then resolveGlobStar fs pfx false opts
      else ((fs.list (fs.resolvePath pfx)).filter
              (getFileMatcher fs pfx pattern false)).map
            (fun name => join2 pfx name) := by
  rw [resolveRegExpPath]
  simp [hg, limitToDirsOf]

theorem rrp2_dead (fs : FS) (opts : Options) (pattern : Seg) (rest : List Seg)
    (pfx : String)
    (hg : (fs.pathExists (fs.resolvePath pfx) && fs.isDirectory (fs.resolvePath pfx)) = false) :
    resolveRegExpPath2 fs opts (pattern :: rest) pfx = [] := by
  rw [resolveRegExpPath2]
  simp [hg]

theorem rrp2_notfin (fs : FS) (opts : Options) (pattern : Seg) (rest : List Seg)
    (pfx : String)
    (hg : (fs.pathExists (fs.resolvePath pfx) && fs.isDirectory (fs.resolvePath pfx)) = true)
    (hfin : (limitToDirsOf rest || rest.isEmpty) = false) :
    resolveRegExpPath2 fs opts (pattern :: rest) pfx =
      (if isGlobstar pattern then resolveGlobStar fs pfx (limitToDirsOf rest) opts
       else ((fs.list (fs.resolvePath pfx)).filter (fun name =>
              let isMatch :=
                match pattern with
                | Seg.re m => m name
                | Seg.str s => s == name
                | Seg.globstar => false
              isMatch && (!(limitToDirsOf rest) ||
                fs.isDirectory (join2 (fs.resolvePath pfx) name)))).map
            (fun name => join2 pfx name)).flatMap (resolveRegExpPath2 fs opts rest) := by
  rw [resolveRegExpPath2]
  have hltd : limitToDirsOf rest = false := by
    cases h : limitToDirsOf rest
    · rfl
    · rw [h] at hfin; cases hfin
  have hni : rest.isEmpty = false := by
    cases h : rest.isEmpty
    · rfl
    · rw [h] at hfin
      simp at hfin
  simp [hg, hfin, hltd, hni]

theorem rrp2_ltd (fs : FS) (opts : Options) (pattern : Seg) (rest : List Seg)
    (pfx : String)
    (hg : (fs.pathExists (fs.resolvePath pfx) && fs.isDirectory (fs.resolvePath pfx)) = true)
    (hltd : limitToDirsOf rest = true) :
    resolveRegExpPath2 fs opts (pattern :: rest) pfx =
      if isGlobstar pattern then
        (resolveGlobStar fs pfx true opts).map (fun path => path ++ "/")
      else ((fs.list (fs.resolvePath pfx)).filter (fun name =>
              let isMatch :=
                match pattern with
                | Seg.re m => m name
                | Seg.str s => s == name
                | Seg.globstar => false
              isMatch && (!(true : Bool) ||
                fs.isDirectory (join2 (fs.resolvePath pfx) name)))).map
            (fun name => join2 pfx name) := by
  rw [resolveRegExpPath2]
  simp [hg, hltd]

theorem rrp2_last (fs : FS) (opts : Options) (pattern : Seg) (pfx : String)
    (hg : (fs.pathExists (fs.resolvePath pfx) && fs.isDirectory (fs.resolvePath pfx)) = true) :
    resolveRegExpPath2 fs opts [pattern] pfx =
      if isGlobstar pattern then resolveGlobStar fs pfx false opts
      else ((fs.list (fs.resolvePath pfx)).filter (fun name =>
              let isMatch :=
                match pattern with
                | Seg.re m => m name
                | Seg.str s => s == name
                | Seg.globstar => false
              isMatch && (!(false : Bool) ||
                fs.isDirectory (join2 (fs.resolvePath pfx) name)))).map
            (fun name => join2 pfx name) := by
  rw [resolveRegExpPath2]
  simp [hg, limitToDirsOf]

/-! ### Existence of every resolved path -/

theorem resolveRegExpPath_exists (fs : FS) (opts : Options)
    (hwf : fs.root.wfB = true) :
    ∀ (rem : List Seg) (pfx r : String),
      r ∈ resolveRegExpPath fs opts rem pfx → fs.pathExists r = true := by
  intro rem
  induction rem with
  | nil =>
      intro pfx r hr
      rw [resolveRegExpPath] at hr
      cases hr
  | cons pattern rest ih =>
      intro pfx r hr
      by_cases hg : (fs.pathExists (fs.resolvePath pfx) &&
          fs.isDirectory (fs.resolvePath pfx)) = true
      · have hg1 := (Bool.and_eq_true _ _).mp hg
        obtain ⟨n, hn⟩ : ∃ n, fs.findPath (fs.resolvePath pfx) = some n := by
          have hex := hg1.1
          unfold FS.pathExists at hex
          cases hfp : fs.findPath (fs.resolvePath pfx) with
          | none => rw [hfp] at hex; cases hex
          | some m => exact ⟨m, rfl⟩
        have hnpfx : fs.findPath pfx = some n := by
          rw [← findPath_resolvePath]
          exact hn
        have hnwf : n.wfB = true := findPath_wf fs hwf hnpfx
        have hglob : ∀ (ltd : Bool) (r0 : String),
            r0 ∈ resolveGlobStar fs pfx ltd opts →
            fs.pathExists r0 = true ∧ r0 ≠ "" := by
          intro ltd r0 hr0
          have hres : resolveGlobStar fs pfx ltd opts = globStarWalk opts.dot ltd n pfx := by
            unfold resolveGlobStar
            rw [hn]
          rw [hres] at hr0
          obtain ⟨names, n2, hch, hreq, hlen, _⟩ :=
            globStarWalk_sound opts.dot ltd n pfx r0 hr0
          have hcf := chain_findPath fs names hch hnpfx hnwf
          constructor
          · unfold FS.pathExists
            rw [hreq, hcf.1]
            rfl
          · rw [hreq] at hlen ⊢
            exact (length_pos_iff_ne_empty _).mp hlen
        have hwild : ∀ (name : String), name ∈ fs.list (fs.resolvePath pfx) →
            fs.pathExists (join2 pfx name) = true := by
          intro name hname
          have hdirb : n.isDirB = true := by
            have hd := hg1.2
            unfold FS.isDirectory at hd
            rw [hn] at hd
            exact hd
          cases n with
          | file => cases hdirb
          | dir l es =>
              have hlist : fs.list (fs.resolvePath pfx) = es.map Prod.fst := by
                unfold FS.list
                rw [hn]
              rw [hlist] at hname
              have hgood : goodName name = true := by
                obtain ⟨e, he, heq⟩ := List.mem_map.mp hname
                have hpair : (name, e.2) ∈ es := by
                  have hm : (e.1, e.2) ∈ es := he
                  rw [heq] at hm
                  exact hm
                exact (wfEntries_mem (wfB_dir hnwf).2 hpair).1
              obtain ⟨c, hc⟩ := lookup_mem_names hname
              unfold FS.pathExists
              rw [findPath_join2 fs pfx hgood, hnpfx]
              simp [childAt, hc]
        by_cases hfin : (limitToDirsOf rest || rest.isEmpty) = true
        · by_cases hltd : limitToDirsOf rest = true
          · rw [rrp_ltd fs opts pattern rest pfx hg hltd] at hr
            by_cases hgs : isGlobstar pattern = true
            · rw [if_pos hgs, List.mem_map] at hr
              obtain ⟨r0, hr0, hreq⟩ := hr
              obtain ⟨hex0, hne0⟩ := hglob true r0 hr0
              rw [← hreq]
              unfold FS.pathExists
              rw [findPath_trailing_sep fs hne0]
              unfold FS.pathExists at hex0
              exact hex0
            · rw [if_neg hgs, List.mem_map] at hr
              obtain ⟨name, hname, hreq⟩ := hr
              rw [← hreq]
              exact hwild name (List.mem_of_mem_filter hname)
          · have hrest : rest = [] := by
              cases h1 : limitToDirsOf rest with
              | true => exact absurd h1 hltd
              | false =>
                  rw [h1] at hfin
                  simp at hfin
                  exact hfin
            subst hrest
            rw [rrp_last fs opts pattern pfx hg] at hr
            by_cases hgs : isGlobstar pattern = true
            · rw [if_pos hgs] at hr
              exact (hglob false r hr).1
            · rw [if_neg hgs, List.mem_map] at hr
              obtain ⟨name, hname, hreq⟩ := hr
              rw [← hreq]
              exact hwild name (List.mem_of_mem_filter hname)
        · have hfin2 : (limitToDirsOf rest || rest.isEmpty) = false := by
            cases h1 : (limitToDirsOf rest || rest.isEmpty) with
            | true => exact absurd h1 hfin
            | false => rfl
          rw [rrp_notfin fs opts pattern rest pfx hg hfin2, List.mem_flatMap] at hr
          obtain ⟨c, _, hrc⟩ := hr
          exact ih c r hrc
      · have hg2 : (fs.pathExists (fs.resolvePath pfx) &&
            fs.isDirectory (fs.resolvePath pfx)) = false := by
          cases h1 : (fs.pathExists (fs.resolvePath pfx) &&
              fs.isDirectory (fs.resolvePath pfx)) with
          | true => exact absurd h1 hg
          | false => rfl
        rw [rrp_dead fs opts pattern rest pfx hg2] at hr
        cases hr

theorem goodName_of_mem_list (fs : FS) (hwf : fs.root.wfB = true) {p name : String}
    (h : name ∈ fs.list p) : goodName name = true := by
  unfold FS.list at h
  cases hfp : fs.findPath p with
  | none =>
      rw [hfp] at h
      cases h
  | some n =>
      rw [hfp] at h
      cases n with
      | file => cases h
      | dir l es =>
          have hnwf := findPath_wf fs hwf hfp
          obtain ⟨e, he, heq⟩ := List.mem_map.mp h
          have hpair : (name, e.2) ∈ es := by
            have hm : (e.1, e.2) ∈ es := he
            rw [heq] at hm
            exact hm
          exact (wfEntries_mem (wfB_dir hnwf).2 hpair).1

/-! ### Results of a trailing-separator pattern are directories -/

theorem resolveRegExpPath_dirs (fs : FS) (opts : Options)
    (hwf : fs.root.wfB = true) :
    ∀ (rem : List Seg) (pfx r : String),
      rem.getLast? = some (Seg.str "") →
      r ∈ resolveRegExpPath fs opts rem pfx → fs.isDirectory r = true := by
  intro rem
  induction rem with
  | nil =>
      intro pfx r hend _
      cases hend
  | cons pattern rest ih =>
      intro pfx r hend hr
      by_cases hg : (fs.pathExists (fs.resolvePath pfx) &&
          fs.isDirectory (fs.resolvePath pfx)) = true
      · have hg1 := (Bool.and_eq_true _ _).mp hg
        obtain ⟨n, hn⟩ : ∃ n, fs.findPath (fs.resolvePath pfx) = some n := by
          have hex := hg1.1
          unfold FS.pathExists at hex
          cases hfp : fs.findPath (fs.resolvePath pfx) with
          | none => rw [hfp] at hex; cases hex
          | some m => exact ⟨m, rfl⟩
        have hnpfx : fs.findPath pfx = some n := by
          rw [← findPath_resolvePath]
          exact hn
        have hnwf : n.wfB = true := findPath_wf fs hwf hnpfx
        by_cases hfin : (limitToDirsOf rest || rest.isEmpty) = true
        · by_cases hltd : limitToDirsOf rest = true
          · rw [rrp_ltd fs opts pattern rest pfx hg hltd] at hr
            by_cases hgs : isGlobstar pattern = true
            · rw [if_pos hgs, List.mem_map] at hr
              obtain ⟨r0, hr0, hreq⟩ := hr
              have hres : resolveGlobStar fs pfx true opts =
                  globStarWalk opts.dot true n pfx := by
                unfold resolveGlobStar
                rw [hn]
              rw [hres] at hr0
              obtain ⟨names, n2, hch, hr0eq, hlen, hdisj⟩ :=
                globStarWalk_sound opts.dot true n pfx r0 hr0
              have hdir2 : n2.isDirB = true := by
                cases hdisj with
                | inl h1 => cases h1
                | inr h1 => exact h1
              have hcf := chain_findPath fs names hch hnpfx hnwf
              have hne0 : r0 ≠ "" := by
                rw [hr0eq] at hlen ⊢
                exact (length_pos_iff_ne_empty _).mp hlen
              rw [← hreq]
              unfold FS.isDirectory
              rw [findPath_trailing_sep fs hne0, hr0eq, hcf.1]
              exact hdir2
            · rw [if_neg hgs, List.mem_map] at hr
              obtain ⟨name, hname, hreq⟩ := hr
              rw [List.mem_filter] at hname
              have hm := hname.2
              unfold getFileMatcher at hm
              simp only [Bool.and_eq_true] at hm
              have hd := hm.2
              simp only [Bool.not_true, Bool.false_or] at hd
              rw [← hreq]
              exact hd
          · have hrest : rest = [] := by
              cases h1 : limitToDirsOf rest with
              | true => exact absurd h1 hltd
              | false =>
                  rw [h1] at hfin
                  simp at hfin
                  exact hfin
            subst hrest
            have hpat : pattern = Seg.str "" := by
              have h1 : [pattern].getLast? = some pattern := rfl
              rw [h1] at hend
              cases hend
              rfl
            subst hpat
            rw [rrp_last fs opts (Seg.str "") pfx hg] at hr
            have hgs0 : isGlobstar (Seg.str "") = false := rfl
            rw [if_neg (by rw [hgs0]; simp)] at hr
            rw [List.mem_map] at hr
            obtain ⟨name, hname, _⟩ := hr
            rw [List.mem_filter] at hname
            have hgood := goodName_of_mem_list fs hwf hname.1
            have hm := hname.2
            unfold getFileMatcher at hm
            simp only [Bool.and_eq_true] at hm
            have hs := hm.1
            simp only [beq_iff_eq] at hs
            exact absurd hs.symm (goodName_ne_empty hgood)
        · have hfin2 : (limitToDirsOf rest || rest.isEmpty) = false := by
            cases h1 : (limitToDirsOf rest || rest.isEmpty) with
            | true => exact absurd h1 hfin
            | false => rfl
          have hni : rest ≠ [] := by
            intro he
            subst he
            simp [limitToDirsOf] at hfin2
          have hend2 : rest.getLast? = some (Seg.str "") := by
            cases rest with
            | nil => exact absurd rfl hni
            | cons b bs =>
                rw [List.getLast?_cons_cons] at hend
                exact hend
          rw [rrp_notfin fs opts pattern rest pfx hg hfin2, List.mem_flatMap] at hr
          obtain ⟨c, _, hrc⟩ := hr
          exact ih c r hend2 hrc
      · have hg2 : (fs.pathExists (fs.resolvePath pfx) &&
            fs.isDirectory (fs.resolvePath pfx)) = false := by
          cases h1 : (fs.pathExists (fs.resolvePath pfx) &&
              fs.isDirectory (fs.resolvePath pfx)) with
          | true => exact absurd h1 hg
          | false => rfl
        rw [rrp_dead fs opts pattern rest pfx hg2] at hr
        cases hr

/-! ### Equivalence of the original and the rewrite -/

theorem matcher_isDirectory_eq (fs : FS) (pfx : String) {name : String}
    (hgood : goodName name = true) :
    fs.isDirectory (join2 pfx name) =
      fs.isDirectory (join2 (fs.resolvePath pfx) name) := by
  unfold FS.isDirectory
  rw [findPath_join2 fs pfx hgood, findPath_join2 fs (fs.resolvePath pfx) hgood,
    findPath_resolvePath]

theorem rrp_eq_rrp2 (fs : FS) (opts : Options) (hwf : fs.root.wfB = true) :
    ∀ (rem : List Seg) (pfx : String),
      resolveRegExpPath fs opts rem pfx = resolveRegExpPath2 fs opts rem pfx := by
  intro rem
  induction rem with
  | nil =>
      intro pfx
      rw [resolveRegExpPath, resolveRegExpPath2]
  | cons pattern rest ih =>
      intro pfx
      by_cases hg : (fs.pathExists (fs.resolvePath pfx) &&
          fs.isDirectory (fs.resolvePath pfx)) = true
      · have hfilters : ∀ (ltd : Bool),
            (fs.list (fs.resolvePath pfx)).filter
              (getFileMatcher fs pfx pattern ltd) =
            (fs.list (fs.resolvePath pfx)).filter (fun name =>
              let isMatch :=
                match pattern with
                | Seg.re m => m name
                | Seg.str s => s == name
                | Seg.globstar => false
              isMatch && (!ltd ||
                fs.isDirectory (join2 (fs.resolvePath pfx) name))) := by
          intro ltd
          apply List.filter_congr
          intro name hname
          have hgood := goodName_of_mem_list fs hwf hname
          unfold getFileMatcher
          rw [matcher_isDirectory_eq fs pfx hgood]
        by_cases hfin : (limitToDirsOf rest || rest.isEmpty) = true
        · by_cases hltd : limitToDirsOf rest = true
          · rw [rrp_ltd fs opts pattern rest pfx hg hltd,
              rrp2_ltd fs opts pattern rest pfx hg hltd]
            by_cases hgs : isGlobstar pattern = true
            · rw [if_pos hgs, if_pos hgs]
            · rw [if_neg hgs, if_neg hgs]
              have h1 := hfilters true
              rw [h1]
          · have hrest : rest = [] := by
              cases h1 : limitToDirsOf rest with
              | true => exact absurd h1 hltd
              | false =>
                  rw [h1] at hfin
                  simp at hfin
                  exact hfin
            subst hrest
            rw [rrp_last fs opts pattern pfx hg, rrp2_last fs opts pattern pfx hg]
            by_cases hgs : isGlobstar pattern = true
            · rw [if_pos hgs, if_pos hgs]
            · rw [if_neg hgs, if_neg hgs]
              have h1 := hfilters false
              rw [h1]
        · have hfin2 : (limitToDirsOf rest || rest.isEmpty) = false := by
            cases h1 : (limitToDirsOf rest || rest.isEmpty) with
            | true => exact absurd h1 hfin
            | false => rfl
          rw [rrp_notfin fs opts pattern rest pfx hg hfin2,
            rrp2_notfin fs opts pattern rest pfx hg hfin2]
          have hrec : resolveRegExpPath fs opts rest = resolveRegExpPath2 fs opts rest :=
            funext (fun pfx2 => ih pfx2)
          rw [hrec, hfilters (limitToDirsOf rest)]
      · have hg2 : (fs.pathExists (fs.resolvePath pfx) &&
            fs.isDirectory (fs.resolvePath pfx)) = false := by
          cases h1 : (fs.pathExists (fs.resolvePath pfx) &&
              fs.isDirectory (fs.resolvePath pfx)) with
          | true => exact absurd h1 hg
          | false => rfl
        rw [rrp_dead fs opts pattern rest pfx hg2,
          rrp2_dead fs opts pattern rest pfx hg2]

theorem resolve_eq_resolve2 (fs : FS) (options : Options)
    (hwf : fs.root.wfB = true) (segments : List Seg) :
    resolve fs options segments = resolve2 fs options segments := by
  unfold resolve resolve2
  simp only [rrp_eq_rrp2 fs options hwf]

/-! ### Option invariance of the resolver -/

theorem resolveGlobStar_opts (fs : FS) (rel : String) (ltd : Bool)
    {o1 o2 : Options} (hd : o1.dot = o2.dot) :
    resolveGlobStar fs rel ltd o1 = resolveGlobStar fs rel ltd o2 := by
  unfold resolveGlobStar
  rw [hd]

theorem rrp_opts (fs : FS) {o1 o2 : Options} (hd : o1.dot = o2.dot) :
    ∀ (rem : List Seg) (pfx : String),
      resolveRegExpPath fs o1 rem pfx = resolveRegExpPath fs o2 rem pfx := by
  intro rem
  induction rem with
  | nil =>
      intro pfx
      rw [resolveRegExpPath, resolveRegExpPath]
  | cons pattern rest ih =>
      intro pfx
      by_cases hg : (fs.pathExists (fs.resolvePath pfx) &&
          fs.isDirectory (fs.resolvePath pfx)) = true
      · by_cases hfin : (limitToDirsOf rest || rest.isEmpty) = true
        · by_cases hltd : limitToDirsOf rest = true
          · rw [rrp_ltd fs o1 pattern rest pfx hg hltd,
              rrp_ltd fs o2 pattern rest pfx hg hltd,
              resolveGlobStar_opts fs pfx true hd]
          · have hrest : rest = [] := by
              cases h1 : limitToDirsOf rest with
              | true => exact absurd h1 hltd
              | false =>
                  rw [h1] at hfin
                  simp at hfin
                  exact hfin
            subst hrest
            rw [rrp_last fs o1 pattern pfx hg, rrp_last fs o2 pattern pfx hg,
              resolveGlobStar_opts fs pfx false hd]
        · have hfin2 : (limitToDirsOf rest || rest.isEmpty) = false := by
            cases h1 : (limitToDirsOf rest || rest.isEmpty) with
            | true => exact absurd h1 hfin
            | false => rfl
          rw [rrp_notfin fs o1 pattern rest pfx hg hfin2,
            rrp_notfin fs o2 pattern rest pfx hg hfin2,
            resolveGlobStar_opts fs pfx (limitToDirsOf rest) hd,
            funext (ih : ∀ pfx2, _)]
      · have hg2 : (fs.pathExists (fs.resolvePath pfx) &&
            fs.isDirectory (fs.resolvePath pfx)) = false := by
          cases h1 : (fs.pathExists (fs.resolvePath pfx) &&
              fs.isDirectory (fs.resolvePath pfx)) with
          | true => exact absurd h1 hg
          | false => rfl
        rw [rrp_dead fs o1 pattern rest pfx hg2, rrp_dead fs o2 pattern rest pfx hg2]

theorem resolve_opts (fs : FS) {o1 o2 : Options} (hd : o1.dot = o2.dot)
    (segments : List Seg) :
    resolve fs o1 segments = resolve fs o2 segments := by
  unfold resolve
  simp only [rrp_opts fs hd]

/-! ### Chains of a dot-less walk have no dot components -/

theorem chain_no_dot : ∀ (names : List String) {n n2 : FSNode},
    ReachChain false n names n2 → ∀ nm ∈ names, headIsDot nm = false := by
  intro names
  induction names with
  | nil =>
      intro n n2 _ nm hm
      cases hm
  | cons name ns ih =>
      intro n n2 hch nm hm
      cases hch with
      | cons hmem hlnk hdot hch2 =>
          cases hm with
          | head =>
              cases hdot with
              | inl h1 => cases h1
              | inr h1 => exact h1
          | tail _ hm2 => exact ih hch2 nm hm2

/-! ### Decomposition of segment lists -/

theorem collect_append : ∀ (segs : List Seg),
    segs = (collectPrefixSegs segs).1.map Seg.str ++ (collectPrefixSegs segs).2 := by
  intro segs
  induction segs with
  | nil => rfl
  | cons s rest ih =>
      cases s with
      | str t =>
          have h1 : collectPrefixSegs (Seg.str t :: rest) =
              (t :: (collectPrefixSegs rest).1, (collectPrefixSegs rest).2) := rfl
          rw [h1, List.map_cons, List.cons_append]
          exact congrArg (Seg.str t :: ·) ih
      | re m => rfl
      | globstar => rfl

theorem getLast?_map_str : ∀ {strs : List String} {x : String},
    (strs.map Seg.str).getLast? = some (Seg.str x) → strs.getLast? = some x := by
  intro strs
  induction strs with
  | nil => intro x h; cases h
  | cons s rest ih =>
      intro x h
      cases rest with
      | nil =>
          have h1 : ([s].map Seg.str).getLast? = some (Seg.str s) := rfl
          rw [h1] at h
          cases h
          rfl
      | cons r rs =>
          have h1 : ((s :: r :: rs).map Seg.str).getLast? =
              ((r :: rs).map Seg.str).getLast? := by
            rw [List.map_cons, List.map_cons, List.getLast?_cons_cons]
          rw [h1] at h
          have h2 := ih h
          rw [List.getLast?_cons_cons]
          exact h2

theorem joinAll_two_ne {strs : List String} (h : 2 ≤ strs.length) :
    joinAll strs ≠ "" := by
  cases strs with
  | nil => simp at h
  | cons a rest =>
      cases rest with
      | nil => simp at h
      | cons b t =>
          rw [joinAll_cons_ne (by simp)]
          intro he
          have hd : (a ++ "/" ++ joinAll (b :: t)).data = [] := by rw [he]
          simp [data_append2] at hd

theorem joinAll_last_empty : ∀ (strs : List String),
    strs.getLast? = some "" → 2 ≤ strs.length →
    lastIsSep (joinAll strs) = true := by
  intro strs
  induction strs with
  | nil => intro h _; cases h
  | cons s rest ih =>
      intro hlast hlen
      cases rest with
      | nil => simp at hlen
      | cons r rs =>
          rw [joinAll_cons_ne (by simp)]
          cases rs with
          | nil =>
              have h1 : (s :: [r]).getLast? = some r := by
                rw [List.getLast?_cons_cons]
                rfl
              rw [h1] at hlast
              cases hlast
              have h2 : joinAll [("" : String)] = "" := rfl
              rw [h2]
              have he : s ++ "/" ++ "" = s ++ "/" := by
                apply String.ext
                simp [data_append2]
              rw [he]
              exact lastIsSep_append_sep s
          | cons r2 rs2 =>
              have hne : joinAll (r :: r2 :: rs2) ≠ "" :=
                joinAll_two_ne (by simp)
              rw [lastIsSep_append_right (s ++ "/") hne]
              apply ih
              · rw [List.getLast?_cons_cons] at hlast
                exact hlast
              · simp

theorem mem_applyIgnore_none {ig : Ignorer} {dot g : Bool} {l : List String}
    {r : String} (h : r ∈ l) : r ∈ applyIgnore ig ⟨dot, g, none⟩ l := h

/-! ### Claim theorems -/

/-- C6: for every pattern list and options, over an unchanging
well-formed filesystem model, every path in the list returned by glob
exists on the filesystem; each resolution branch (literal path, wildcard
directory listing, globstar expansion) only emits paths obtained from an
existence check or from listing an existing directory. -/
theorem glob_results_on_fs (ig : Ignorer) (fs : FS) (patterns : List (List Seg))
    (options : Options) (hwf : fs.root.wfB = true) :
    ∀ r ∈ glob ig fs patterns options, fs.pathExists r = true := by
  intro r hr
  rw [glob_eq, mem_sortPaths] at hr
  have hr2 := mem_applyIgnore hr
  rw [List.mem_flatMap] at hr2
  obtain ⟨segs, _, hr3⟩ := hr2
  unfold resolve at hr3
  simp only [] at hr3
  by_cases hempty : (collectPrefixSegs segs).2.isEmpty = true
  · rw [if_pos hempty, resolveStringPath_eq] at hr3
    by_cases hcond : (fs.pathExists (joinAll (collectPrefixSegs segs).1) &&
        (!(lastIsSep (joinAll (collectPrefixSegs segs).1)) ||
          fs.isDirectory (joinAll (collectPrefixSegs segs).1))) = true
    · rw [if_pos hcond] at hr3
      have hr4 : r = joinAll (collectPrefixSegs segs).1 := by
        simpa using hr3
      rw [hr4]
      exact ((Bool.and_eq_true _ _).mp hcond).1
    · rw [if_neg hcond] at hr3
      simp at hr3
  · rw [if_neg hempty] at hr3
    have hr4 : r ∈ resolveRegExpPath fs options (collectPrefixSegs segs).2
        (joinAll (collectPrefixSegs segs).1) := by
      simpa using hr3
    exact resolveRegExpPath_exists fs options hwf _ _ r hr4

/-- Witness for C6: a concrete globstar result exists on the concrete
filesystem. -/
theorem glob_results_on_fs_witness : exFS.pathExists "a/b" = true :=
  glob_results_on_fs exIg exFS [[Seg.globstar]] exOpts (by decide) "a/b" (by decide)

/-- C7: a segment list of literals only resolves to a one-element list
with the joined path when the path exists (and, when it was written with
a trailing separator, is a directory), and to the no-contribution value
otherwise; the failure contributes nothing to the accumulated result of
glob and never raises. -/
theorem literal_resolver (fs : FS) (opts : Options) (strs : List String) :
    (resolve fs opts (strs.map Seg.str) =
      if fs.pathExists (joinAll strs) &&
          (!(lastIsSep (joinAll strs)) || fs.isDirectory (joinAll strs))
      then some [joinAll strs] else none)
    ∧ (∀ (ig : Ignorer) (patterns : List (List Seg)),
        resolve fs opts (strs.map Seg.str) = none →
        glob ig fs (patterns ++ [strs.map Seg.str]) opts = glob ig fs patterns opts) := by
  constructor
  · rw [resolve_literal, resolveStringPath_eq]
    by_cases hcond : (fs.pathExists (joinAll strs) &&
        (!(lastIsSep (joinAll strs)) || fs.isDirectory (joinAll strs))) = true
    · rw [if_pos hcond, if_pos hcond]
    · rw [if_neg hcond, if_neg hcond]
  · intro ig patterns hnone
    rw [glob_eq, glob_eq]
    have h2 : (patterns ++ [strs.map Seg.str]).flatMap
        (fun segments => (resolve fs opts segments).getD []) =
        patterns.flatMap (fun segments => (resolve fs opts segments).getD []) := by
      simp [List.flatMap_append, hnone]
    rw [h2]

/-- Witness for C7: a missing literal path contributes nothing. -/
theorem literal_resolver_witness :
    glob exIg exFS ([] ++ [["nope"].map Seg.str]) exOpts = glob exIg exFS [] exOpts :=
  (literal_resolver exFS exOpts ["nope"]).2 exIg [] (by decide)

/-- C9: on every well-formed filesystem, for every pattern list and
option record, the glob of src/lib/glob.js and the rewritten glob of
src/unnamed/part_002 return identical result lists (the ES6 rewrite is
observationally equivalent, including the handling of the no-match
return value). -/
theorem glob_eq_glob2 (ig : Ignorer) (fs : FS) (patterns : List (List Seg))
    (options : Options) (hwf : fs.root.wfB = true) :
    glob ig fs patterns options = glob2 ig fs patterns options := by
  rw [glob_eq, glob2_eq]
  have hraw : patterns.flatMap (fun segments => (resolve fs options segments).getD []) =
      patterns.flatMap (fun segments => (resolve2 fs options segments).getD []) := by
    simp only [resolve_eq_resolve2 fs options hwf]
  unfold applyIgnore
  cases hi : options.ignore with
  | none => simp only [hraw]
  | some ign => simp only [filterIgnored2_eq, hraw]

/-- Witness for C9 at a concrete filesystem and pattern. -/
theorem glob_eq_glob2_witness :
    glob exIg exFS [[Seg.globstar]] exOpts = glob2 exIg exFS [[Seg.globstar]] exOpts :=
  glob_eq_glob2 exIg exFS [[Seg.globstar]] exOpts (by decide)

/-- C10: the ignore post-filter is independent of the options the caller
passed to glob: it filters by a predicate built from translating each
ignore pattern with the fnmatch defaults, so the filter phase gives the
same result for any two option records sharing the ignore value, and two
glob calls differing only in the globstar flag coincide entirely. -/
theorem ignore_options_independent (ig : Ignorer) :
    (∀ (paths : List String) (ign : IgnoreVal),
      filterIgnored ig paths ign =
        paths.filter (fun p => ign.toList.all (fun pattern => ignoreKeep ig pattern p)))
    ∧ (∀ (o1 o2 : Options) (paths : List String), o1.ignore = o2.ignore →
        applyIgnore ig o1 paths = applyIgnore ig o2 paths)
    ∧ (∀ (fs : FS) (patterns : List (List Seg)) (o1 o2 : Options),
        o1.dot = o2.dot → o1.ignore = o2.ignore →
        glob ig fs patterns o1 = glob ig fs patterns o2) := by
  refine ⟨fun paths ign => filterIgnored_eq ig paths ign, ?_, ?_⟩
  · intro o1 o2 paths hi
    unfold applyIgnore
    rw [hi]
  · intro fs patterns o1 o2 hd hi
    rw [glob_eq, glob_eq]
    have hraw : patterns.flatMap (fun segments => (resolve fs o1 segments).getD []) =
        patterns.flatMap (fun segments => (resolve fs o2 segments).getD []) := by
      simp only [resolve_opts fs hd]
    rw [hraw]
    unfold applyIgnore
    rw [hi]

/-- Witness for C10: the filter phase coincides for two option records
that differ in dot and globstar but share the ignore value. -/
theorem ignore_options_independent_witness :
    applyIgnore exIgDrop ⟨false, true, some (IgnoreVal.one "x")⟩ ["a", "b"] =
      applyIgnore exIgDrop ⟨true, false, some (IgnoreVal.one "x")⟩ ["a", "b"] :=
  (ignore_options_independent exIgDrop).2.1 ⟨false, true, some (IgnoreVal.one "x")⟩
    ⟨true, false, some (IgnoreVal.one "x")⟩ ["a", "b"] rfl

/-- C4: glob with an ignore option equals glob without it filtered by
the keep predicate of the ignore pattern (hence a subset), and an array
of ignore patterns removes the union of the individual exclusions (each
pattern is an independent sequential filter). -/
theorem ignore_post_filter (ig : Ignorer) (fs : FS) (patterns : List (List Seg))
    (dot g : Bool) (x : String) (xs : List String) :
    (glob ig fs patterns ⟨dot, g, some (IgnoreVal.one x)⟩ =
      (glob ig fs patterns ⟨dot, g, none⟩).filter (fun p => ignoreKeep ig x p))
    ∧ (glob ig fs patterns ⟨dot, g, some (IgnoreVal.many xs)⟩ =
      (glob ig fs patterns ⟨dot, g, none⟩).filter
        (fun p => xs.all (fun pattern => ignoreKeep ig pattern p)))
    ∧ (∀ (ign : IgnoreVal) (p : String),
        p ∈ glob ig fs patterns ⟨dot, g, some ign⟩ →
        p ∈ glob ig fs patterns ⟨dot, g, none⟩) := by
  have hglob : ∀ (ign : IgnoreVal),
      glob ig fs patterns ⟨dot, g, some ign⟩ =
      (glob ig fs patterns ⟨dot, g, none⟩).filter
        (fun p => ign.toList.all (fun pattern => ignoreKeep ig pattern p)) := by
    intro ign
    rw [glob_eq, glob_eq]
    have hraw : patterns.flatMap (fun segments =>
        (resolve fs ⟨dot, g, some ign⟩ segments).getD []) =
        patterns.flatMap (fun segments =>
          (resolve fs ⟨dot, g, none⟩ segments).getD []) := by
      simp only [resolve_opts fs
        (show (⟨dot, g, some ign⟩ : Options).dot = (⟨dot, g, none⟩ : Options).dot from rfl)]
    rw [hraw]
    unfold applyIgnore
    simp only [filterIgnored_eq]
    rw [sortPaths_filter_comm]
  refine ⟨?_, ?_, ?_⟩
  · rw [hglob (IgnoreVal.one x)]
    apply List.filter_congr
    intro p _
    simp [IgnoreVal.toList]
  · rw [hglob (IgnoreVal.many xs)]
    exact List.filter_congr (fun p _ => rfl)
  · intro ign p hp
    rw [hglob ign] at hp
    exact List.mem_of_mem_filter hp

/-- Witness for C4: a path kept by the ignore filter is in the unfiltered
result. -/
theorem ignore_post_filter_witness :
    "c" ∈ glob exIgDrop exFS (translateLiteral "c") ⟨false, true, none⟩ :=
  (ignore_post_filter exIgDrop exFS (translateLiteral "c") false true "zz" []).2.2
    (IgnoreVal.one "zz") "c" (by decide)

/-- C8: with the dot option off, every globstar result is a chain of
entry names none of which starts with a dot (no returned path passes
through a dot-named component below the starting prefix); with the dot
option on, every entry chain (subject only to the symlink rule) is
recursed into like any other and its path is returned. -/
theorem dot_entries_globstar (ltd : Bool) :
    (∀ (n : FSNode) (rel r : String), r ∈ globStarWalk false ltd n rel →
      ∃ names, r = joinChain rel names ∧ ∀ nm ∈ names, headIsDot nm = false)
    ∧ (∀ (names : List String) (n n2 : FSNode) (rel : String),
        ReachChain true n names n2 → 0 < (joinChain rel names).length →
        (ltd = false ∨ n2.isDirB = true) →
        joinChain rel names ∈ globStarWalk true ltd n rel) := by
  constructor
  · intro n rel r hr
    obtain ⟨names, n2, hch, hreq, _, _⟩ := globStarWalk_sound false ltd n rel r hr
    exact ⟨names, hreq, chain_no_dot names hch⟩
  · intro names n n2 rel hch hlen hd
    exact globStarWalk_complete true ltd names rel hch hlen hd

/-- Witness for C8 on a directory with a dot entry and a plain entry. -/
theorem dot_entries_globstar_witness :
    (∃ names, "p/e" = joinChain "p" names ∧ ∀ nm ∈ names, headIsDot nm = false) ∧
    joinChain "p" [".d"] ∈ globStarWalk true false
      (FSNode.dir false [(".d", FSNode.file), ("e", FSNode.file)]) "p" :=
  ⟨(dot_entries_globstar false).1
      (FSNode.dir false [(".d", FSNode.file), ("e", FSNode.file)]) "p" "p/e" (by decide),
   (dot_entries_globstar false).2 [".d"]
      (FSNode.dir false [(".d", FSNode.file), ("e", FSNode.file)]) FSNode.file "p"
      (ReachChain.cons (List.mem_cons_self _ _) rfl (Or.inl rfl) (ReachChain.nil _))
      (by decide) (Or.inl rfl)⟩

/-- C5: globstar expansion never descends into a symbolic link: the walk
of a symlinked directory returns at most the directory itself whatever
its entries are, and every walk result follows a chain that only crosses
non-link directories; a symlinked directory is nevertheless listed as a
leaf match by a non-globstar wildcard segment, with and without the
trailing-separator directory restriction. -/
theorem symlink_not_traversed (fs : FS) (opts : Options) (dot ltd : Bool)
    (m : String → Bool) (pfx name : String) (es2 : List (String × FSNode)) :
    (∀ (es : List (String × FSNode)) (rel : String),
      globStarWalk dot ltd (FSNode.dir true es) rel =
        if 0 < rel.length then [rel] else [])
    ∧ (∀ (n : FSNode) (rel r : String), r ∈ globStarWalk dot ltd n rel →
        ∃ names n2, ReachChain dot n names n2 ∧ r = joinChain rel names)
    ∧ ((fs.pathExists (fs.resolvePath pfx) && fs.isDirectory (fs.resolvePath pfx)) = true →
        name ∈ fs.list (fs.resolvePath pfx) → m name = true →
        fs.findPath (join2 pfx name) = some (FSNode.dir true es2) →
        join2 pfx name ∈ resolveRegExpPath fs opts [Seg.re m] pfx ∧
        join2 pfx name ∈ resolveRegExpPath fs opts [Seg.re m, Seg.str ""] pfx) := by
  refine ⟨?_, ?_, ?_⟩
  · intro es rel
    rw [globStarWalk]
    simp
  · intro n rel r hr
    obtain ⟨names, n2, hch, hreq, _, _⟩ := globStarWalk_sound dot ltd n rel r hr
    exact ⟨names, n2, hch, hreq⟩
  · intro hg hname hm hfind
    have hdir : fs.isDirectory (join2 pfx name) = true := by
      unfold FS.isDirectory
      rw [hfind]
      rfl
    constructor
    · rw [rrp_last fs opts (Seg.re m) pfx hg]
      rw [if_neg (by intro h; cases h)]
      rw [List.mem_map]
      refine ⟨name, ?_, rfl⟩
      rw [List.mem_filter]
      refine ⟨hname, ?_⟩
      unfold getFileMatcher
      simp [hm]
    · rw [rrp_ltd fs opts (Seg.re m) [Seg.str ""] pfx hg rfl]
      rw [if_neg (by intro h; cases h)]
      rw [List.mem_map]
      refine ⟨name, ?_, rfl⟩
      rw [List.mem_filter]
      refine ⟨hname, ?_⟩
      unfold getFileMatcher
      simp [hm, hdir]

/-- Witness for C5: the symlinked directory L of the example tree is
listed as a leaf match of a wildcard, also under the directory-only
restriction. -/
theorem symlink_not_traversed_witness :
    "L" ∈ resolveRegExpPath exFS exOpts [Seg.re (fun _ => true)] "" ∧
    "L" ∈ resolveRegExpPath exFS exOpts [Seg.re (fun _ => true), Seg.str ""] "" :=
  (symlink_not_traversed exFS exOpts false false (fun _ => true) "" "L"
      [("z", FSNode.file)]).2.2
    (by decide) (by decide) rfl rfl

/-- C2: for a nonempty directory prefix that exists, glob of the pattern
dir ++ "/**" (translated per the spec contract of the Translator)
includes dir itself, and includes every descendant reachable under the
dot-file and symlink rules at every depth: globstar expansion appends
the starting relative path itself whenever it is nonempty and not
excluded by limitToDirs. -/
theorem globstar_includes_dir (ig : Ignorer) (fs : FS) (dir : String)
    (dot g : Bool) {n : FSNode}
    (hne : dir ≠ "") (hn : fs.findPath dir = some n) (hdir : n.isDirB = true) :
    dir ∈ glob ig fs (translateDirGlobstar dir) ⟨dot, g, none⟩ ∧
    (∀ (names : List String) (n2 : FSNode), ReachChain dot n names n2 →
      joinChain dir names ∈ glob ig fs (translateDirGlobstar dir) ⟨dot, g, none⟩) := by
  have hguard : (fs.pathExists (fs.resolvePath dir) &&
      fs.isDirectory (fs.resolvePath dir)) = true := by
    have h1 : fs.findPath (fs.resolvePath dir) = some n := by
      rw [findPath_resolvePath]
      exact hn
    unfold FS.pathExists FS.isDirectory
    rw [h1]
    simp [hdir]
  have hmem : ∀ (names : List String) (n2 : FSNode), ReachChain dot n names n2 →
      joinChain dir names ∈ glob ig fs (translateDirGlobstar dir) ⟨dot, g, none⟩ := by
    intro names n2 hch
    rw [glob_eq, mem_sortPaths]
    apply mem_applyIgnore_none
    refine List.mem_flatMap.mpr ⟨(splitSlash dir).map Seg.str ++ [Seg.globstar],
      List.mem_cons_self _ _, ?_⟩
    unfold resolve
    simp only [collectPrefixSegs_strs_globstar]
    have hres : resolveRegExpPath fs ⟨dot, g, none⟩ [Seg.globstar]
        (joinAll (splitSlash dir)) =
        globStarWalk dot false n dir := by
      rw [joinAll_splitSlash, rrp_last fs _ Seg.globstar dir hguard,
        if_pos (show isGlobstar Seg.globstar = true from rfl)]
      unfold resolveGlobStar
      rw [findPath_resolvePath, hn]
    simp only [List.isEmpty_cons, Option.getD_some, if_neg (by simp : ¬ false = true)]
    rw [hres]
    exact globStarWalk_complete dot false names dir hch
      ((length_pos_iff_ne_empty _).mpr (joinChain_ne_empty names hne)) (Or.inl rfl)
  exact ⟨hmem [] n (ReachChain.nil n), hmem⟩

/-- Witness for C2 on the example tree: the directory a and its
descendant a/b are both returned for the pattern a/**. -/
theorem globstar_includes_dir_witness :
    "a" ∈ glob exIg exFS (translateDirGlobstar "a") ⟨false, true, none⟩ ∧
    joinChain "a" ["b"] ∈ glob exIg exFS (translateDirGlobstar "a") ⟨false, true, none⟩ := by
  have h := globstar_includes_dir exIg exFS "a" false true (by decide)
    (rfl : exFS.findPath "a" = some (FSNode.dir false [("b", FSNode.file)])) rfl
  exact ⟨h.1, h.2 ["b"] FSNode.file
    (ReachChain.cons (List.mem_cons_self _ _) rfl (Or.inr rfl) (ReachChain.nil _))⟩

/-- C3: a literal path (no wildcard metacharacters, per the RE_MAGIC
test of part_001) round-trips: glob returns exactly the one-element list
with the path when it exists (and, when written with a trailing
separator, is a directory), and the empty list when it does not exist;
the literal branch of the older part_001 implementation agrees. -/
theorem literal_roundtrip (ig : Ignorer) (fs : FS) (f : String) (dot g : Bool)
    (hmagic : hasMagic f = false) :
    (fs.pathExists f = true → (lastIsSep f = true → fs.isDirectory f = true) →
      glob ig fs (translateLiteral f) ⟨dot, g, none⟩ = [f])
    ∧ (fs.pathExists f = false → glob ig fs (translateLiteral f) ⟨dot, g, none⟩ = [])
    ∧ (fs.pathExists f = true → (lastIsSep f = true → fs.isDirectory f = true) →
        part1GlobNoMagic fs f = [f])
    ∧ (fs.pathExists f = false → part1GlobNoMagic fs f = []) := by
  have hres : resolve fs ⟨dot, g, none⟩ ((splitSlash f).map Seg.str) =
      match resolveStringPath fs f with
      | some target => some [target]
      | none => none := by
    rw [resolve_literal, joinAll_splitSlash]
  have hglobeq : glob ig fs (translateLiteral f) ⟨dot, g, none⟩ =
      sortPaths ((resolveStringPath fs f).elim [] (fun t => [t])) := by
    rw [glob_eq]
    unfold translateLiteral
    have hflat : [(splitSlash f).map Seg.str].flatMap
        (fun segments => (resolve fs ⟨dot, g, none⟩ segments).getD []) =
        (resolveStringPath fs f).elim [] (fun t => [t]) := by
      simp only [List.flatMap_cons, List.flatMap_nil, List.append_nil, hres]
      cases resolveStringPath fs f <;> rfl
    rw [hflat]
    rfl
  refine ⟨?_, ?_, ?_, ?_⟩
  · intro hex hdir
    rw [hglobeq, resolveStringPath_eq]
    have hcond : (fs.pathExists f &&
        (!(lastIsSep f) || fs.isDirectory f)) = true := by
      rw [hex]
      cases hl : lastIsSep f
      · rfl
      · rw [hdir hl]
        rfl
    rw [if_pos hcond]
    rfl
  · intro hex
    rw [hglobeq, resolveStringPath_eq]
    rw [if_neg (by rw [hex]; simp)]
    rfl
  · intro hex hdir
    unfold part1GlobNoMagic
    rw [if_pos (by
      rw [hex]
      cases hl : lastIsSep f
      · rfl
      · rw [hdir hl]
        rfl)]
  · intro hex
    unfold part1GlobNoMagic
    rw [if_neg (by rw [hex]; simp)]

/-- Witness for C3: the file c round-trips and a missing path yields the
empty list. -/
theorem literal_roundtrip_witness :
    glob exIg exFS (translateLiteral "c") ⟨false, true, none⟩ = ["c"] ∧
    glob exIg exFS (translateLiteral "nope") ⟨false, true, none⟩ = [] ∧
    part1GlobNoMagic exFS "c" = ["c"] :=
  ⟨(literal_roundtrip exIg exFS "c" false true rfl).1 rfl
      (fun h => absurd h (by decide)),
   (literal_roundtrip exIg exFS "nope" false true rfl).2.1 rfl,
   (literal_roundtrip exIg exFS "c" false true rfl).2.2.1 rfl
      (fun h => absurd h (by decide))⟩

/-- C1 counterexample: the pattern * followed by a trailing separator
(segments: a wildcard matching everything, then the empty literal) on a
filesystem with directories a and L returns the directories WITHOUT a
trailing separator, refuting the sentence that every result of a
trailing-separator query ends with the separator (the repository test
testGlobDirectoryWithTrailingSlash expects exactly this slash-less
output). -/
theorem trailing_slash_counterexample :
    glob exIg exFS [[Seg.re (fun _ => true), Seg.str ""]] exOpts = ["L", "a"] ∧
    exFS.isDirectory "a" = true ∧ lastIsSep "a" = false ∧
    exFS.isDirectory "L" = true ∧ lastIsSep "L" = false :=
  ⟨by decide, by decide, by decide, by decide, by decide⟩

/-- C1 (amended): a pattern queried with a trailing separator restricts
matches to directories in all three resolution branches, and the
surviving matches carry a trailing separator in the pure-literal branch
and in the final-globstar branch, while the ordinary-wildcard branch
returns its directory matches without appending the separator. -/
theorem trailing_slash_amended (fs : FS) (opts : Options) (ig : Ignorer)
    (hwf : fs.root.wfB = true) :
    (∀ (patterns : List (List Seg)),
      (∀ segs ∈ patterns, segs.getLast? = some (Seg.str "") ∧ 2 ≤ segs.length) →
      ∀ r ∈ glob ig fs patterns opts, fs.isDirectory r = true)
    ∧ (∀ (strs : List String), strs ≠ [] →
        ∀ r ∈ (resolve fs opts ((strs ++ [""]).map Seg.str)).getD [],
          lastIsSep r = true ∧ fs.isDirectory r = true)
    ∧ (∀ (pfx r : String),
        r ∈ resolveRegExpPath fs opts [Seg.globstar, Seg.str ""] pfx →
        lastIsSep r = true) := by
  refine ⟨?_, ?_, ?_⟩
  · intro patterns hp r hr
    rw [glob_eq, mem_sortPaths] at hr
    have hr2 := mem_applyIgnore hr
    rw [List.mem_flatMap] at hr2
    obtain ⟨segs, hsegs, hr3⟩ := hr2
    obtain ⟨hlast, hlen⟩ := hp segs hsegs
    unfold resolve at hr3
    simp only [] at hr3
    by_cases hempty : (collectPrefixSegs segs).2.isEmpty = true
    · rw [if_pos hempty, resolveStringPath_eq] at hr3
      have h2nil : (collectPrefixSegs segs).2 = [] := by
        cases h0 : (collectPrefixSegs segs).2 with
        | nil => rfl
        | cons a b =>
            rw [h0] at hempty
            cases hempty
      have hsplit := collect_append segs
      rw [h2nil, List.append_nil] at hsplit
      have hlast2 : ((collectPrefixSegs segs).1).getLast? = some "" := by
        rw [hsplit] at hlast
        exact getLast?_map_str hlast
      have hlen2 : 2 ≤ ((collectPrefixSegs segs).1).length := by
        rw [hsplit] at hlen
        simpa using hlen
      have hsep : lastIsSep (joinAll (collectPrefixSegs segs).1) = true :=
        joinAll_last_empty _ hlast2 hlen2
      by_cases hcond : (fs.pathExists (joinAll (collectPrefixSegs segs).1) &&
          (!(lastIsSep (joinAll (collectPrefixSegs segs).1)) ||
            fs.isDirectory (joinAll (collectPrefixSegs segs).1))) = true
      · rw [if_pos hcond] at hr3
        have hr4 : r = joinAll (collectPrefixSegs segs).1 := by
          simpa using hr3
        have hc2 := ((Bool.and_eq_true _ _).mp hcond).2
        rw [hsep] at hc2
        simp at hc2
        rw [hr4]
        exact hc2
      · rw [if_neg hcond] at hr3
        simp at hr3
    · rw [if_neg hempty] at hr3
      have hr4 : r ∈ resolveRegExpPath fs opts (collectPrefixSegs segs).2
          (joinAll (collectPrefixSegs segs).1) := by
        simpa using hr3
      have h2ne : (collectPrefixSegs segs).2 ≠ [] := by
        intro h0
        rw [h0] at hempty
        exact hempty rfl
      have hlast2 : ((collectPrefixSegs segs).2).getLast? = some (Seg.str "") := by
        have hsplit := collect_append segs
        rw [hsplit, List.getLast?_append_of_ne_nil _ h2ne] at hlast
        exact hlast
      exact resolveRegExpPath_dirs fs opts hwf _ _ r hlast2 hr4
  · intro strs hne r hr
    rw [resolve_literal, resolveStringPath_eq] at hr
    have hsep : lastIsSep (joinAll (strs ++ [""])) = true :=
      joinAll_snoc_empty strs hne
    by_cases hcond : (fs.pathExists (joinAll (strs ++ [""])) &&
        (!(lastIsSep (joinAll (strs ++ [""]))) ||
          fs.isDirectory (joinAll (strs ++ [""])))) = true
    · rw [if_pos hcond] at hr
      have hr4 : r = joinAll (strs ++ [""]) := by
        simpa using hr
      have hc2 := ((Bool.and_eq_true _ _).mp hcond).2
      rw [hsep] at hc2
      simp at hc2
      rw [hr4]
      exact ⟨hsep, hc2⟩
    · rw [if_neg hcond] at hr
      simp at hr
  · intro pfx r hr
    by_cases hg : (fs.pathExists (fs.resolvePath pfx) &&
        fs.isDirectory (fs.resolvePath pfx)) = true
    · rw [rrp_ltd fs opts Seg.globstar [Seg.str ""] pfx hg rfl] at hr
      rw [if_pos (show isGlobstar Seg.globstar = true from rfl)] at hr
      rw [List.mem_map] at hr
      obtain ⟨r0, _, hreq⟩ := hr
      rw [← hreq]
      exact lastIsSep_append_sep r0
    · have hg2 : (fs.pathExists (fs.resolvePath pfx) &&
          fs.isDirectory (fs.resolvePath pfx)) = false := by
        cases h1 : (fs.pathExists (fs.resolvePath pfx) &&
            fs.isDirectory (fs.resolvePath pfx)) with
        | true => exact absurd h1 hg
        | false => rfl
      rw [rrp_dead fs opts Seg.globstar [Seg.str ""] pfx hg2] at hr
      cases hr

/-- Witness for the amended C1: the wildcard-with-trailing-separator
query on the example tree yields only directories. -/
theorem trailing_slash_amended_witness : exFS.isDirectory "a" = true :=
  (trailing_slash_amended exFS exOpts exIg (by decide)).1
    [[Seg.re (fun _ => true), Seg.str ""]]
    (by
      intro segs hs
      cases hs with
      | head => exact ⟨rfl, by decide⟩
      | tail _ h2 => cases h2)
    "a" (by decide)

end Glob